import Mathlib

/-! A shallow embedding of go-landlock, as vendored in firecracker-task-driver.

The definitions below transcribe `vendor/github.com/shoenig/go-landlock`, and
`ContainsAll` of `vendor/github.com/hashicorp/go-set/set.go` and the
millisecond conversions of `vendor/oss.indeed.com/go/libtime/unixtime.go`.

Modelling conventions
* A Go `string` is a `List Char` (the sequence of its code points; strings are
  taken to be valid UTF-8).  Where the source indexes bytes (`mode[i]`), the
  UTF-8 encoding is made explicit through `utf8Bytes`.
* A Go `error` is an `Option GoError`; `none` is `nil`.
* A `(*Path, error)` result is an `Except GoError Path`.
* `rule` (a `uint64`) is a `Nat`; only bitwise OR of constants below `2^15`
  occurs, so no reduction modulo `2^64` is needed.
* The package variables `available` and `version` are explicit parameters.
* A Go panic is `Except.error` carrying the panic message.
* A kernel call returns `(r0, e1)`; an assignment of outcomes is a function of
  the events so far and the call, and `lock` returns the log of its calls.
* The filesystem is a predicate `pathExists` (whether `os.Stat` succeeds).
* The process state is the no-new-privileges flag, the open descriptors and
  the committed rulesets; it changes with each successful kernel call.
* An `int64` is an `Int`, reduced with `wrapInt64` after every operation that
  can overflow; Go's `/` and `%` are `Int.tdiv` and `Int.tmod`.
-/

namespace landlock

/-! ## Strings -/

/-- Go strings, as sequences of code points. -/
abbrev GoString := List Char

/-! ## Errors -/

/-- The error values of the package (`errors.New` sentinels), `syscall.Errno`
values, and the result of `errors.Join` on two non-nil errors. -/
inductive GoError where
  | ErrImproperType
  | ErrImproperMode
  | ErrImproperPath
  | ErrLandlockNotAvailable
  | ErrLandlockFailedToLock
  | ErrVersionUndetectable
  | ErrNotSupported
  | ErrBug
  | Errno (e : Nat)
  | Join (a b : GoError)
  deriving DecidableEq, Repr

/-- Go's `errors.Join(a, b)`: nil arguments are discarded, and the result is
nil when nothing is left.  For two non-nil errors the result is the join of
both, the only case `Lock` reaches.  When one argument only is non-nil, Go
returns a join with that single member; it is represented here by the member
itself, which `errors.Is` does not tell apart. -/
def errorsJoin : Option GoError → Option GoError → Option GoError
  | some a, some b => some (GoError.Join a b)
  | some a, none => some a
  | none, some b => some b
  | none, none => none

/-- Go's `errors.Is(err, target)`: `err` is `target`, or `err` is a joined
error one of whose members is (recursively) `target`. -/
def errorsIs : GoError → GoError → Bool
  | GoError.Join a b, target =>
      decide (GoError.Join a b = target) || errorsIs a target || errorsIs b target
  | err, target => decide (err = target)

/-! ## landlock.go: Safety -/

/-- The type `Safety` is a `byte`. -/
abbrev Safety := Nat

/-- Constant `Mandatory Safety = iota`. -/
def Mandatory : Safety := 0

/-- Constant `OnlySupported`. -/
def OnlySupported : Safety := 1

/-- Constant `OnlyAvailable`. -/
def OnlyAvailable : Safety := 2

/-- Constant `Try`. -/
def Try : Safety := 3

/-! ## landlock_linux.go / landlock_default.go: Lock -/

namespace Linux

/-- Method `(*locker).Lock` of `landlock_linux.go`.  `available` is the package
variable set by `init`; `lockResult` is what `l.lock()` returns when it is
called (it is called only when `available` holds). -/
def Lock (available : Bool) (lockResult : Option GoError) (s : Safety) : Option GoError :=
  if !available then
    if s = Try ∨ s = OnlyAvailable then
      none
    else
      some GoError.ErrLandlockNotAvailable
  else
    match lockResult with
    | some err =>
        if s ≠ Try then
          errorsJoin (some GoError.ErrLandlockFailedToLock) (some err)
        else
          none
    | none => none

end Linux

namespace Default

/-- Method `(*locker).Lock` of `landlock_default.go` (the `!linux` build). -/
def Lock (s : Safety) : Option GoError :=
  if s = OnlyAvailable then none
  else if s = OnlySupported then none
  else if s = Try then none
  else if s = Mandatory then some GoError.ErrNotSupported
  else some GoError.ErrBug

end Default

/-! ## syscall_linux.go: permission bits -/

/-- Constant `unix.LANDLOCK_ACCESS_FS_EXECUTE` (Linux UAPI `landlock.h`). -/
def fsExecute : Nat := 0x1

/-- Constant `unix.LANDLOCK_ACCESS_FS_WRITE_FILE`. -/
def fsWriteFile : Nat := 0x2

/-- Constant `unix.LANDLOCK_ACCESS_FS_READ_FILE`. -/
def fsReadFile : Nat := 0x4

/-- Constant `unix.LANDLOCK_ACCESS_FS_READ_DIR`. -/
def fsReadDir : Nat := 0x8

/-- Constant `unix.LANDLOCK_ACCESS_FS_REMOVE_DIR`. -/
def fsRemoveDir : Nat := 0x10

/-- Constant `unix.LANDLOCK_ACCESS_FS_REMOVE_FILE`. -/
def fsRemoveFile : Nat := 0x20

/-- Constant `unix.LANDLOCK_ACCESS_FS_MAKE_CHAR`. -/
def fsMakeChar : Nat := 0x40

/-- Constant `unix.LANDLOCK_ACCESS_FS_MAKE_DIR`. -/
def fsMakeDir : Nat := 0x80

/-- Constant `unix.LANDLOCK_ACCESS_FS_MAKE_REG`. -/
def fsMakeRegular : Nat := 0x100

/-- Constant `unix.LANDLOCK_ACCESS_FS_MAKE_SOCK`. -/
def fsMakeSocket : Nat := 0x200

/-- Constant `unix.LANDLOCK_ACCESS_FS_MAKE_FIFO`. -/
def fsMakeFifo : Nat := 0x400

/-- Constant `unix.LANDLOCK_ACCESS_FS_MAKE_BLOCK`. -/
def fsMakeBlock : Nat := 0x800

/-- Constant `unix.LANDLOCK_ACCESS_FS_MAKE_SYM`. -/
def fsMakeSymlink : Nat := 0x1000

/-- Constant `unix.LANDLOCK_ACCESS_FS_REFER`. -/
def fsRefer : Nat := 0x2000

/-- Constant `unix.LANDLOCK_ACCESS_FS_TRUNCATE`. -/
def fsTruncate : Nat := 0x4000

/-- Function `capabilities()` of `syscall_linux.go`; `version` is the package
variable holding the negotiated ABI version. -/
def capabilities (version : Int) : Nat :=
  let opts := fsExecute |||
    fsWriteFile ||| fsReadFile ||| fsReadDir |||
    fsRemoveFile ||| fsRemoveDir ||| fsMakeChar |||
    fsMakeDir ||| fsMakeRegular ||| fsMakeSocket |||
    fsMakeFifo ||| fsMakeBlock ||| fsMakeSymlink
  let opts := if version ≥ 2 then opts ||| fsRefer else opts
  let opts := if version ≥ 3 then opts ||| fsTruncate else opts
  opts

/-! ## path.go: Path -/

/-- The struct `Path`. -/
structure Path where
  mode : GoString
  path : GoString
  dir : Bool
  deriving DecidableEq, Repr

/-- Generic helper `ifelse` of `path.go`. -/
def ifelse {T : Type} (condition : Bool) (result : T) (otherwise : T) : T :=
  if condition then result else otherwise

/-! ## path_linux.go: access -/

/-- One iteration of the loop of `Path.access`: the `switch c` on a character
of the mode, updating the accumulator `allow`. -/
def accessStep (p : Path) (version : Int) (allow : Nat) (c : Char) : Nat :=
  if c = 'r' then
    let directory := fsReadFile ||| fsReadDir
    allow ||| ifelse p.dir directory fsReadFile
  else if c = 'w' then
    let allow := allow ||| fsWriteFile
    allow ||| ifelse (decide (version ≥ 3)) fsTruncate 0
  else if c = 'x' then
    allow ||| fsExecute
  else if c = 'c' then
    let directory := fsMakeRegular ||| fsMakeSocket ||| fsMakeFifo ||| fsMakeBlock |||
      fsMakeSymlink ||| fsMakeDir ||| fsRemoveFile ||| fsRemoveDir
    let allow := allow ||| ifelse p.dir directory 0
    allow ||| ifelse (p.dir && decide (version ≥ 2)) fsRefer 0
  else
    allow

/-- Method `(*Path).access` of `path_linux.go`: `allow := rule(0)`, then the
loop over the characters of `p.mode`. -/
def Path.access (p : Path) (version : Int) : Nat :=
  p.mode.foldl (accessStep p version) 0

/-- The per-letter mask of the specification (section 4.4): what one mode
letter grants for a rule with directory flag `dir` at capability level `level`.
Stated from the specification's words, for comparison with `Path.access`. -/
def letterMask (dir : Bool) (level : Int) (c : Char) : Nat :=
  if c = 'r' then
    (if dir then fsReadFile ||| fsReadDir else fsReadFile)
  else if c = 'w' then
    (if level ≥ 3 then fsWriteFile ||| fsTruncate else fsWriteFile)
  else if c = 'x' then
    fsExecute
  else if c = 'c' then
    (if dir then
      (fsMakeRegular ||| fsMakeSocket ||| fsMakeFifo ||| fsMakeBlock ||| fsMakeSymlink |||
        fsMakeDir ||| fsRemoveFile ||| fsRemoveDir) ||| (if level ≥ 2 then fsRefer else 0)
    else 0)
  else 0

/-- Bitwise OR of the per-letter masks over a mode string. -/
def orOfLetters (dir : Bool) (level : Int) (mode : GoString) : Nat :=
  (mode.map (letterMask dir level)).foldr (fun m acc => m ||| acc) 0

/-! ## Go standard library: the string functions `ParsePath` calls -/

/-- UTF-8 encoding of one code point, as a list of byte values. -/
def utf8EncodeChar (c : Char) : List Nat :=
  let n := c.toNat
  if n < 0x80 then [n]
  else if n < 0x800 then [0xC0 + n / 0x40, 0x80 + n % 0x40]
  else if n < 0x10000 then [0xE0 + n / 0x1000, 0x80 + n / 0x40 % 0x40, 0x80 + n % 0x40]
  else [0xF0 + n / 0x40000, 0x80 + n / 0x1000 % 0x40, 0x80 + n / 0x40 % 0x40, 0x80 + n % 0x40]

/-- The bytes of a Go string. -/
def utf8Bytes (s : GoString) : List Nat :=
  s.flatMap utf8EncodeChar

/-- Go's builtin `len` on a string: its length in bytes. -/
def len (s : GoString) : Nat :=
  (utf8Bytes s).length

/-- Go's `unicode.IsSpace`: in the Latin-1 range the characters tab, newline,
vertical tab, form feed, carriage return, space, U+0085 and U+00A0; above it
the code points of the Unicode White_Space property. -/
def IsSpace (r : Char) : Bool :=
  let n := r.toNat
  if n ≤ 0xFF then
    n = 0x09 || n = 0x0A || n = 0x0B || n = 0x0C || n = 0x0D || n = 0x20 ||
      n = 0x85 || n = 0xA0
  else
    n = 0x1680 || (0x2000 ≤ n && n ≤ 0x200A) || n = 0x2028 || n = 0x2029 ||
      n = 0x202F || n = 0x205F || n = 0x3000

/-- Go's `strings.TrimSpace`: the string without its leading and trailing
white space. -/
def TrimSpace (s : GoString) : GoString :=
  (s.dropWhile IsSpace).rdropWhile IsSpace

/-- Go's `strings.SplitN(s, sep, n)` for a one-character separator and `n ≥ 0`:
at most `n` substrings, cut at the first `n - 1` separators, the last one being
the unsplit remainder; `n = 0` gives no substring. -/
def SplitN (s : GoString) (sep : Char) : Nat → List GoString
  | 0 => []
  | 1 => [s]
  | n + 2 =>
    if sep ∈ s then
      s.takeWhile (fun ch => ch != sep) ::
        SplitN ((s.dropWhile (fun ch => ch != sep)).drop 1) sep (n + 1)
    else
      [s]

/-! ## path.go: validation and parsing -/

/-- Method `(*Path).Equal`; a `*Path` is an `Option Path`, `none` being nil. -/
def Path.Equal (p o : Option Path) : Bool :=
  match p, o with
  | some p, some o =>
    if p.mode ≠ o.mode then false
    else if p.path ≠ o.path then false
    else if p.dir ≠ o.dir then false
    else true
  | none, none => true
  | _, _ => false

deriving instance DecidableEq for Except

/-- Function `IsProperType`. -/
def IsProperType (filetype : GoString) : Bool :=
  filetype == ['d'] || filetype == ['f']

/-- The loop of `IsProperMode` over the bytes `mode[i]`. -/
def IsProperMode.loop : List Nat → Bool
  | [] => true
  | b :: bs =>
    if b = 'r'.toNat ∨ b = 'w'.toNat ∨ b = 'c'.toNat ∨ b = 'x'.toNat then
      IsProperMode.loop bs
    else
      false

/-- Function `IsProperMode`. -/
def IsProperMode (mode : GoString) : Bool :=
  if len mode = 0 then
    false
  else
    IsProperMode.loop (utf8Bytes mode)

/-- Function `IsProperPath`. -/
def IsProperPath (path : GoString) : Bool :=
  path != []

/-- Function `parsePath`. -/
def parsePath (filetype mode path : GoString) : Except GoError Path :=
  if !IsProperType filetype then
    Except.error GoError.ErrImproperType
  else if !IsProperMode mode then
    Except.error GoError.ErrImproperMode
  else if !IsProperPath path then
    Except.error GoError.ErrImproperPath
  else
    let dir := ifelse (filetype == ['d']) true false
    Except.ok { mode := mode, path := path, dir := dir }

/-- Function `ParsePath`. -/
def ParsePath (s : GoString) : Except GoError Path :=
  let s := TrimSpace s
  if len s = 0 then
    Except.error GoError.ErrImproperPath
  else
    match SplitN s ':' 3 with
    | [filetype, mode, path] => parsePath filetype mode path
    | _ => Except.error GoError.ErrImproperPath

/-- The error of a `(*Path, error)` result (`none` is nil). -/
def errorOf (r : Except GoError Path) : Option GoError :=
  match r with
  | Except.ok _ => none
  | Except.error e => some e

/-- Two parse results are the same outcome: both are rules and the rules are
`Equal`, or both are the same error. -/
def sameOutcome (a b : Except GoError Path) : Bool :=
  match a, b with
  | Except.ok p, Except.ok o => Path.Equal (some p) (some o)
  | Except.error e, Except.error f => decide (e = f)
  | _, _ => false

/-- A character is one of the mode letters r, w, c, x. -/
def isModeLetter (ch : Char) : Bool :=
  ch = 'r' || ch = 'w' || ch = 'c' || ch = 'x'

/-- The error classification of `ParsePath` in the words of the specification:
with `t` the trimmed input, `ErrImproperPath` if `t` is empty or has fewer than
two colons; otherwise, with `(k, m, p)` the split of `t` at its first two
colons, `ErrImproperType` if `k` is neither "d" nor "f", else `ErrImproperMode`
if `m` is empty or has a character outside r, w, c, x, else `ErrImproperPath`
if `p` is empty, else success (`none`). -/
def ParsePathErrorSpec (s : GoString) : Option GoError :=
  let t := TrimSpace s
  if t = [] ∨ t.count ':' < 2 then
    some GoError.ErrImproperPath
  else
    let k := t.takeWhile (fun ch => ch != ':')
    let rest := (t.dropWhile (fun ch => ch != ':')).drop 1
    let m := rest.takeWhile (fun ch => ch != ':')
    let p := (rest.dropWhile (fun ch => ch != ':')).drop 1
    if k ≠ ['d'] ∧ k ≠ ['f'] then
      some GoError.ErrImproperType
    else if m = [] ∨ m.any (fun ch => !isModeLetter ch) then
      some GoError.ErrImproperMode
    else if p = [] then
      some GoError.ErrImproperPath
    else
      none

/-! ## path.go: constructors and hash -/

/-- Method `(*Path).Hash` (for a non-nil receiver). -/
def Path.Hash (p : Path) : GoString :=
  p.path

/-- Function `newPath`; a Go panic is `Except.error` carrying the panic
message. -/
def newPath (path mode : GoString) (dir : Bool) : Except String Path :=
  if !IsProperPath path then
    Except.error "improper path"
  else if !IsProperMode mode then
    Except.error "improper mode"
  else
    Except.ok { mode := mode, path := path, dir := dir }

/-- Function `File`. -/
def File (path mode : GoString) : Except String Path :=
  newPath path mode false

/-- Function `Dir`. -/
def Dir (path mode : GoString) : Except String Path :=
  newPath path mode true

/-! ## syscall_linux.go / available_linux.go: capability probing -/

/-- Go's conversion `int(r0)` of a `uintptr` on a 64-bit platform: the value
modulo `2^64` read as a two's complement signed integer. -/
def intOfUintptr (r0 : Nat) : Int :=
  if r0 % 2 ^ 64 < 2 ^ 63 then ((r0 % 2 ^ 64 : Nat) : Int)
  else ((r0 % 2 ^ 64 : Nat) : Int) - 2 ^ 64

/-- Function `abi`; `r0` and `e1` are what the probing
`SYS_LANDLOCK_CREATE_RULESET` call returns. -/
def abi (r0 e1 : Nat) : Int × Option GoError :=
  let v := intOfUintptr r0
  if e1 ≠ 0 then
    (v, some (GoError.Errno e1))
  else if v < 0 then
    (0, some GoError.ErrVersionUndetectable)
  else if v = 0 then
    (0, some GoError.ErrNotSupported)
  else
    (v, none)

/-- Function `Detect` of `available_linux.go`. -/
def Detect (r0 e1 : Nat) : Int × Option GoError :=
  abi r0 e1

/-- The package variables `available` and `version` of `available_linux.go`. -/
structure Cached where
  available : Bool
  version : Int
  deriving DecidableEq, Repr

namespace available_linux

/-- Function `init` of `available_linux.go`, run on the zero values of the
package variables (`available = false`, `version = 0`). -/
def init (r0 e1 : Nat) : Cached :=
  let zero : Cached := { available := false, version := 0 }
  match Detect r0 e1 with
  | (v, none) => { zero with available := true, version := v }
  | (_, some _) => zero

end available_linux

/-- Function `Available` of `available_linux.go`. -/
def Available (c : Cached) : Bool :=
  c.available

/-! ## path_linux.go: bundles -/

/-- Function `load`, as its loop: a candidate is appended to `result` when
`os.Stat` on its path returns no error.  `pathExists` is the filesystem state:
whether `os.Stat` succeeds on a path (any error counts as non-existence). -/
def load (pathExists : GoString → Bool) (paths : List Path) : List Path :=
  paths.foldl (fun result p => if pathExists p.path then result ++ [p] else result) []

/-! ## syscall_linux.go / landlock_linux.go: the enforcement sequence

Each kernel call returns a pair `(r0, e1)`: a value and an errno, `e1 = 0`
meaning success.  The calls made are recorded, in order, in a log of events. -/

/-- The kernel calls made by `lock`, with their arguments. -/
inductive Call where
  | ruleset (handleAccessFS : Nat)
  | openPath (path : GoString)
  | add (fd : Int) (allowedAccess : Nat) (parentFd : Int)
  | prctl
  | restrict (fd : Int)
  deriving DecidableEq, Repr

/-- One call as it happened: the call and what it returned. -/
structure Event where
  call : Call
  r0 : Int
  e1 : Nat
  deriving DecidableEq, Repr

/-- An assignment of outcomes to kernel calls: what a call returns, given the
events so far. -/
abbrev Kernel := List Event → Call → Int × Nat

/-- Issue one call: ask the kernel and record the event. -/
def issue (k : Kernel) (log : List Event) (c : Call) : (Int × Nat) × List Event :=
  (k log c, log ++ [{ call := c, r0 := (k log c).1, e1 := (k log c).2 }])

/-- Function `errno` of `syscall_linux.go`. -/
def errno (e : Nat) : Option GoError :=
  if e = 0 then none else some (GoError.Errno e)

/-- Function `ruleset`: returns `int(r0), errno(e1)`. -/
def ruleset (k : Kernel) (log : List Event) (handleAccessFS : Nat) :
    (Int × Option GoError) × List Event :=
  match issue k log (Call.ruleset handleAccessFS) with
  | ((r0, e1), log) => ((r0, errno e1), log)

/-- Go's `syscall.Open(path, O_PATH|O_CLOEXEC, 0)`: the descriptor and the
errno as an error. -/
def syscallOpen (k : Kernel) (log : List Event) (path : GoString) :
    (Int × Option GoError) × List Event :=
  match issue k log (Call.openPath path) with
  | ((r0, e1), log) => ((r0, errno e1), log)

/-- Function `add`. -/
def add (k : Kernel) (log : List Event) (fd : Int) (allowedAccess : Nat) (parentFd : Int) :
    Option GoError × List Event :=
  match issue k log (Call.add fd allowedAccess parentFd) with
  | ((_, e1), log) => (errno e1, log)

/-- Function `prctl`. -/
def prctl (k : Kernel) (log : List Event) : Option GoError × List Event :=
  match issue k log Call.prctl with
  | ((_, e1), log) => (errno e1, log)

/-- Function `restrict`. -/
def restrict (k : Kernel) (log : List Event) (fd : Int) : Option GoError × List Event :=
  match issue k log (Call.restrict fd) with
  | ((_, e1), log) => (errno e1, log)

/-- Method `(*locker).lockOne`. -/
def lockOne (k : Kernel) (version : Int) (log : List Event) (p : Path) (fd : Int) :
    Option GoError × List Event :=
  let allow := p.access version
  match syscallOpen k log p.path with
  | ((_, some err), log) => (some err, log)
  | ((fd2, none), log) => add k log fd allow fd2

/-- The loop of `lock` over `l.paths.Slice()`. -/
def lockLoop (k : Kernel) (version : Int) (fd : Int) :
    List Path → List Event → Option GoError × List Event
  | [], log => (none, log)
  | path :: rest, log =>
    match lockOne k version log path fd with
    | (some err, log) => (some err, log)
    | (none, log) => lockLoop k version fd rest log

/-- Method `(*locker).lock`; `list` is `l.paths.Slice()`.  The result is the
error returned and the log of the calls made. -/
def lock (k : Kernel) (version : Int) (list : List Path) : Option GoError × List Event :=
  let c := capabilities version
  match ruleset k [] c with
  | ((_, some err), log) => (some err, log)
  | ((fd, none), log) =>
    match lockLoop k version fd list log with
    | (some err, log) => (some err, log)
    | (none, log) =>
      match prctl k log with
      | (some err, log) => (some err, log)
      | (none, log) =>
        match restrict k log fd with
        | (some err, log) => (some err, log)
        | (none, log) => (none, log)

/-- The steps of the enforcement sequence, as the specification names them. -/
inductive Step where
  | createRuleset
  | openAnchor (path : GoString)
  | attach (allowedAccess : Nat)
  | dropPrivileges
  | commit
  deriving DecidableEq, Repr

/-- The step a kernel call performs. -/
def Call.step : Call → Step
  | Call.ruleset _ => Step.createRuleset
  | Call.openPath path => Step.openAnchor path
  | Call.add _ allowedAccess _ => Step.attach allowedAccess
  | Call.prctl => Step.dropPrivileges
  | Call.restrict _ => Step.commit

/-- The steps for the rules of a set: open then attach, rule by rule. -/
def ruleSteps (version : Int) (list : List Path) : List Step :=
  list.flatMap (fun p => [Step.openAnchor p.path, Step.attach (p.access version)])

/-- The full enforcement sequence of the specification (section 4.5): create
the ruleset, open and attach every rule, drop privileges, commit. -/
def plan (version : Int) (list : List Path) : List Step :=
  [Step.createRuleset] ++ ruleSteps version list ++ [Step.dropPrivileges, Step.commit]

/-- A run of part of the sequence: `events` were issued for the steps `steps`
with result `res`.  Either every step was issued and succeeded and `res` is
nil; or the events stop at the first failing call, which is the last one, and
`res` is its errno. -/
def Ran (res : Option GoError) (events : List Event) (steps : List Step) : Prop :=
  (res = none ∧ events.map (fun ev => ev.call.step) = steps ∧ ∀ ev ∈ events, ev.e1 = 0) ∨
  (∃ pre ev, events = pre ++ [ev] ∧ (∀ e ∈ pre, e.e1 = 0) ∧ ev.e1 ≠ 0 ∧
    res = some (GoError.Errno ev.e1) ∧ events.map (fun ev => ev.call.step) <+: steps)

/-! ## path_linux.go: bundle tags, constructors and candidates -/

/-- Constant `modeShared`. -/
def modeShared : GoString := ['1']

/-- Constant `modeStdio`. -/
def modeStdio : GoString := ['2']

/-- Constant `modeTTY`. -/
def modeTTY : GoString := ['3']

/-- Constant `modeTmp`. -/
def modeTmp : GoString := ['4']

/-- Constant `modeVMInfo`. -/
def modeVMInfo : GoString := ['5']

/-- Constant `modeDNS`. -/
def modeDNS : GoString := ['6']

/-- Constant `modeCerts`. -/
def modeCerts : GoString := ['7']

/-- The seven reserved bundle tags. -/
def bundleTags : List GoString :=
  [modeShared, modeStdio, modeTTY, modeTmp, modeVMInfo, modeDNS, modeCerts]

/-- Function `Shared`: `&Path{mode: modeShared}`, the other fields zero. -/
def Shared : Path := { mode := modeShared, path := [], dir := false }

/-- Function `Stdio`. -/
def Stdio : Path := { mode := modeStdio, path := [], dir := false }

/-- Function `TTY`. -/
def TTY : Path := { mode := modeTTY, path := [], dir := false }

/-- Function `Tmp`. -/
def Tmp : Path := { mode := modeTmp, path := [], dir := false }

/-- Function `VMInfo`. -/
def VMInfo : Path := { mode := modeVMInfo, path := [], dir := false }

/-- Function `DNS`. -/
def DNS : Path := { mode := modeDNS, path := [], dir := false }

/-- Function `Certs`. -/
def Certs : Path := { mode := modeCerts, path := [], dir := false }

/-- The rule a call `File(path, mode)` of `init` returns (see
`candidates_constructed` for the check that the call does return it). -/
def fileRule (path mode : String) : Path :=
  { mode := mode.toList, path := path.toList, dir := false }

/-- The rule a call `Dir(path, mode)` of `init` returns. -/
def dirRule (path mode : String) : Path :=
  { mode := mode.toList, path := path.toList, dir := true }

/-- The candidates of the bundle `shared` in `init`. -/
def sharedCandidates : List Path :=
  [fileRule "/dev/null" "rw",
    dirRule "/lib" "rx",
    dirRule "/lib64" "rx",
    dirRule "/usr/lib" "rx",
    dirRule "/usr/lib64" "rx",
    dirRule "/usr/libexec" "rx",
    dirRule "/usr/local/lib" "rx",
    dirRule "/usr/local/lib64" "rx",
    fileRule "/etc/ld.so.conf" "r",
    fileRule "/etc/ld.so.cache" "r",
    dirRule "/etc/ld.so.conf.d" "r"]

/-- The candidates of the bundle `stdio` in `init`. -/
def stdioCandidates : List Path :=
  [fileRule "/dev/full" "rw",
    fileRule "/dev/zero" "r",
    fileRule "/dev/fd" "r",
    fileRule "/dev/stdin" "rw",
    fileRule "/dev/stdout" "rw",
    fileRule "/dev/urandom" "r",
    dirRule "/dev/log" "w",
    dirRule "/usr/share/locale" "r",
    fileRule "/proc/self/cmdline" "r",
    fileRule "/usr/share/zoneinfo" "r",
    fileRule "/usr/share/common-licenses" "r",
    fileRule "/proc/sys/kernel/ngroups_max" "r",
    fileRule "/proc/sys/kernel/cap_last_cap" "r",
    fileRule "/proc/sys/vm/overcommit_memory" "r"]

/-- The candidates of the bundle `tty` in `init`. -/
def ttyCandidates : List Path :=
  [fileRule "/dev/tty" "rw",
    fileRule "/dev/console" "rw",
    fileRule "/etc/terminfo" "r",
    dirRule "/usr/lib/terminfo" "r",
    dirRule "/usr/share/terminfo" "r"]

/-- The candidates of the bundle `tmp` in `init`. -/
def tmpCandidates : List Path :=
  [dirRule "/tmp" "rwc"]

/-- The candidates of the bundle `vminfo` in `init`. -/
def vminfoCandidates : List Path :=
  [fileRule "/proc/stat" "r",
    fileRule "/proc/meminfo" "r",
    fileRule "/proc/cpuinfo" "r",
    fileRule "/proc/diskstats" "r",
    fileRule "/proc/self/maps" "r",
    fileRule "/proc/sys/kernel/version" "r",
    fileRule "/sys/devices/system/cpu" "r"]

/-- The candidates of the bundle `dns` in `init`. -/
def dnsCandidates : List Path :=
  [fileRule "/etc/hosts" "r",
    fileRule "/hostname" "r",
    fileRule "/etc/services" "r",
    fileRule "/etc/protocols" "r",
    fileRule "/etc/resolv.conf" "r"]

/-- The candidates of the bundle `certs` in `init`. -/
def certsCandidates : List Path :=
  [dirRule "/etc/ssl/certs" "r",
    dirRule "/etc/pki/tls/certs" "r",
    dirRule "/sys/etc/security/cacerts" "r",
    fileRule "/etc/ssl/ca-bundle.pem" "r",
    fileRule "/etc/pki/tls/cacert.pem" "r",
    fileRule "/etc/pki/ca-trust/extracted/pem/tls-ca-bundle.pem" "r",
    fileRule "/etc/ssl/cert.pem" "r"]

/-- The package variables `shared`, `stdio`, `tmp`, `tty`, `vminfo`, `dns` and
`certs` of `path_linux.go`. -/
structure Bundles where
  shared : List Path
  stdio : List Path
  tmp : List Path
  tty : List Path
  vminfo : List Path
  dns : List Path
  certs : List Path

namespace path_linux

/-- Function `init` of `path_linux.go`: every bundle is its candidate list
filtered by `load`. -/
def init (pathExists : GoString → Bool) : Bundles :=
  { shared := load pathExists sharedCandidates
    stdio := load pathExists stdioCandidates
    tty := load pathExists ttyCandidates
    tmp := load pathExists tmpCandidates
    vminfo := load pathExists vminfoCandidates
    dns := load pathExists dnsCandidates
    certs := load pathExists certsCandidates }

end path_linux

/-! ## go-set v2: the hash set holding the rules -/

/-- Modelled from the spec: the type `HashSet` of go-set v2, whose source file
is not among the sources.  The specification asks of the collection: insert
reporting whether the element is newly added, bulk insert, enumerate all, size;
it is keyed on the element's hash, and inserting an element whose key is present
is a no-op.  The set is the list of its elements in order of first insertion. -/
structure HashSet where
  items : List Path
  deriving DecidableEq, Repr

/-- Modelled from the spec: the function `NewHashSet` of go-set v2, an empty
set (the capacity hint has no effect on the contents). -/
def NewHashSet (_size : Nat) : HashSet :=
  { items := [] }

/-- Modelled from the spec: the method `HashSet.Insert` of go-set v2.  The key
is `item.Hash()`; when the key is present the set is unchanged and the result
false, otherwise the item is added and the result true. -/
def HashSet.Insert (s : HashSet) (item : Path) : Bool × HashSet :=
  let key := item.Hash
  if s.items.any (fun q => decide (q.Hash = key)) then
    (false, s)
  else
    (true, { items := s.items ++ [item] })

/-- Modelled from the spec: the method `HashSet.InsertSlice` of go-set v2,
inserting each element in turn; true when one of them was newly added. -/
def HashSet.InsertSlice (s : HashSet) (items : List Path) : Bool × HashSet :=
  items.foldl (fun (acc : Bool × HashSet) item =>
    ((acc.2.Insert item).1 || acc.1, (acc.2.Insert item).2)) (false, s)

/-- Modelled from the spec: the method `HashSet.Slice` of go-set v2, all
elements of the set (in an order the implementation does not specify; here the
order of first insertion). -/
def HashSet.Slice (s : HashSet) : List Path :=
  s.items

/-- Modelled from the spec: the method `HashSet.Size` of go-set v2. -/
def HashSet.Size (s : HashSet) : Nat :=
  s.items.length

/-! ## landlock_linux.go: New -/

/-- The body of the loop of `New`: the `switch path.mode`. -/
def NewStep (b : Bundles) (s : HashSet) (path : Path) : HashSet :=
  if path.mode = modeShared then (s.InsertSlice b.shared).2
  else if path.mode = modeStdio then (s.InsertSlice b.stdio).2
  else if path.mode = modeTTY then (s.InsertSlice b.tty).2
  else if path.mode = modeTmp then (s.InsertSlice b.tmp).2
  else if path.mode = modeVMInfo then (s.InsertSlice b.vminfo).2
  else if path.mode = modeDNS then (s.InsertSlice b.dns).2
  else if path.mode = modeCerts then (s.InsertSlice b.certs).2
  else (s.Insert path).2

/-- Function `New` of `landlock_linux.go`: the set `paths` of the locker it
returns.  `b` holds the bundle variables set by `init`. -/
def New (b : Bundles) (paths : List Path) : HashSet :=
  paths.foldl (NewStep b) (NewHashSet 10)

/-! ## The process state the enforcement sequence acts on

The state of the process as the kernel keeps it: the no-new-privileges flag,
the open descriptors (in the order they were opened) and the rulesets committed
with `landlock_restrict_self`.  A call that fails changes nothing; a successful
`landlock_create_ruleset` or `open` adds the descriptor it returns; a successful
`prctl(PR_SET_NO_NEW_PRIVS)` sets the flag; a successful
`landlock_restrict_self` commits its ruleset.  No call of `lock` closes a
descriptor. -/

/-- The process state. -/
structure Proc where
  noNewPrivs : Bool
  openFds : List Int
  restrictions : List Int
  deriving DecidableEq, Repr

/-- The effect of one kernel call, with its outcome, on the process state. -/
def Proc.apply (st : Proc) (ev : Event) : Proc :=
  if ev.e1 ≠ 0 then
    st
  else
    match ev.call with
    | Call.ruleset _ => { st with openFds := st.openFds ++ [ev.r0] }
    | Call.openPath _ => { st with openFds := st.openFds ++ [ev.r0] }
    | Call.add _ _ _ => st
    | Call.prctl => { st with noNewPrivs := true }
    | Call.restrict fd => { st with restrictions := st.restrictions ++ [fd] }

/-- The process state after a sequence of calls. -/
def Proc.run (st : Proc) (events : List Event) : Proc :=
  events.foldl Proc.apply st

/-- The descriptor a call leaves open: the one a successful
`landlock_create_ruleset` or `open` returns. -/
def Event.opened (ev : Event) : List Int :=
  if ev.e1 ≠ 0 then []
  else
    match ev.call with
    | Call.ruleset _ => [ev.r0]
    | Call.openPath _ => [ev.r0]
    | _ => []

/-- The events a function added to the log it was given. -/
def eventsSince (before after : List Event) : List Event :=
  after.drop before.length

/-- An assignment of outcomes in which every call succeeds, and a call that
returns a descriptor returns 3 plus the number of calls made so far. -/
def kernelAllSucceed : Kernel :=
  fun log c =>
    match c with
    | Call.ruleset _ => (3 + log.length, 0)
    | Call.openPath _ => (3 + log.length, 0)
    | _ => (0, 0)

/-- An assignment of outcomes in which every `open` fails with `ENOENT` and
every other call succeeds. -/
def kernelOpenFails : Kernel :=
  fun log c =>
    match c with
    | Call.ruleset _ => (3 + log.length, 0)
    | Call.openPath _ => (-1, 2)
    | _ => (0, 0)

/-- An assignment of outcomes in which `landlock_restrict_self` fails with
`EPERM` and every other call succeeds. -/
def kernelRestrictFails : Kernel :=
  fun log c =>
    match c with
    | Call.ruleset _ => (3 + log.length, 0)
    | Call.openPath _ => (3 + log.length, 0)
    | Call.restrict _ => (-1, 1)
    | _ => (0, 0)

/-! ## Strictness of the Safety values -/

/-- The rank of a Safety value in the order of strictness
`Try < OnlyAvailable < OnlySupported < Mandatory` read off the comments of
`landlock.go` (any other byte is ranked with `Mandatory`). -/
def strictness (s : Safety) : Nat :=
  if s = Try then 0
  else if s = OnlyAvailable then 1
  else if s = OnlySupported then 2
  else 3

/-! ## go-set (v1): set.go -/

namespace set

/-- The struct `Set[T]` of `set.go`.  Its field `items` is a `map[T]nothing`;
only the set of keys of the map matters, and `len(s.items)` is its number of
elements. -/
structure Set (T : Type) [DecidableEq T] where
  items : Finset T

/-- Function `New`: an empty set (the capacity has no effect on the
contents). -/
def New {T : Type} [DecidableEq T] (_size : Int) : Set T :=
  { items := ∅ }

/-- Method `Set.Insert`. -/
def Set.Insert {T : Type} [DecidableEq T] (s : Set T) (item : T) : Bool × Set T :=
  if item ∈ s.items then
    (false, s)
  else
    (true, { items := insert item s.items })

/-- Method `Set.InsertAll`. -/
def Set.InsertAll {T : Type} [DecidableEq T] (s : Set T) (items : List T) : Bool × Set T :=
  items.foldl (fun (acc : Bool × Set T) item =>
    if (acc.2.Insert item).1 then (true, (acc.2.Insert item).2)
    else (acc.1, (acc.2.Insert item).2)) (false, s)

/-- Function `From`. -/
def From {T : Type} [DecidableEq T] (items : List T) : Set T :=
  ((New (items.length : Int) : Set T).InsertAll items).2

/-- Method `Set.Contains`. -/
def Set.Contains {T : Type} [DecidableEq T] (s : Set T) (item : T) : Bool :=
  decide (item ∈ s.items)

/-- The loop of `Set.ContainsAll` over `items`. -/
def Set.ContainsAll.loop {T : Type} [DecidableEq T] (s : Set T) : List T → Bool
  | [] => true
  | item :: rest =>
    if !s.Contains item then
      false
    else
      Set.ContainsAll.loop s rest

/-- Method `Set.ContainsAll`. -/
def Set.ContainsAll {T : Type} [DecidableEq T] (s : Set T) (items : List T) : Bool :=
  if s.items.card < items.length then
    false
  else
    Set.ContainsAll.loop s items

end set

/-! ## libtime: unixtime.go -/

namespace libtime

/-- Reduction of an integer to the range of `int64` (two's complement
wrap-around, as Go arithmetic on `int64` does). -/
def wrapInt64 (x : Int) : Int :=
  (x + 9223372036854775808) % 18446744073709551616 - 9223372036854775808

/-- Constant `nanosToMillisDenominator`:
`int64(time.Millisecond / time.Nanosecond)`. -/
def nanosToMillisDenominator : Int := 1000000

/-- Constant `millisToSecsDenominator`:
`int64(time.Second / time.Millisecond)`. -/
def millisToSecsDenominator : Int := 1000

/-- Go's `time.Time`, as the instant it denotes: seconds since the Unix epoch
and nanoseconds within the second. -/
structure Time where
  sec : Int
  nsec : Int
  deriving DecidableEq, Repr

/-- Go's `time.Unix(sec, nsec)`: `nsec` outside `[0, 999999999]` is carried
into `sec`. -/
def timeUnix (sec nsec : Int) : Time :=
  if nsec < 0 ∨ nsec ≥ 1000000000 then
    let n := Int.tdiv nsec 1000000000
    let sec := wrapInt64 (sec + n)
    let nsec := wrapInt64 (nsec - wrapInt64 (n * 1000000000))
    if nsec < 0 then
      { sec := wrapInt64 (sec - 1), nsec := wrapInt64 (nsec + 1000000000) }
    else
      { sec := sec, nsec := nsec }
  else
    { sec := sec, nsec := nsec }

/-- Go's `Time.UnixNano`: `sec * 1e9 + nsec` in `int64` arithmetic. -/
def Time.UnixNano (t : Time) : Int :=
  wrapInt64 (wrapInt64 (t.sec * 1000000000) + t.nsec)

/-- Function `ToMilliseconds`. -/
def ToMilliseconds (t : Time) : Int :=
  wrapInt64 (Int.tdiv t.UnixNano nanosToMillisDenominator)

/-- Function `FromMilliseconds`. -/
def FromMilliseconds (ms : Int) : Time :=
  let seconds := wrapInt64 (Int.tdiv ms millisToSecsDenominator)
  let milliseconds := Int.tmod ms millisToSecsDenominator
  let nanoseconds := wrapInt64 (milliseconds * nanosToMillisDenominator)
  timeUnix seconds nanoseconds

end libtime

/-! # Theorems -/

/-! ## Errors -/

theorem errorsIs_self (e : GoError) : errorsIs e e = true := by
  cases e <;> simp [errorsIs]

theorem errorsIs_join_left (a b : GoError) : errorsIs (GoError.Join a b) a = true := by
  simp [errorsIs, errorsIs_self]

theorem errorsIs_join_right (a b : GoError) : errorsIs (GoError.Join a b) b = true := by
  simp [errorsIs, errorsIs_self]

/-! ## Safety policy -/

/-- C1: on the Linux variant, `Lock` follows the Safety table.  When landlock is
not available it returns nil for `Try` and `OnlyAvailable` and
`ErrLandlockNotAvailable` for `Mandatory` and `OnlySupported`; when it is
available and `l.lock()` fails with `e` it returns nil for `Try` and the join of
`ErrLandlockFailedToLock` and `e` (which wraps both) for the other three; when
`l.lock()` succeeds it returns nil for all four values. -/
theorem Lock_linux_safety_table (r : Option GoError) (e : GoError) :
    (Linux.Lock false r Try = none ∧
      Linux.Lock false r OnlyAvailable = none ∧
      Linux.Lock false r Mandatory = some GoError.ErrLandlockNotAvailable ∧
      Linux.Lock false r OnlySupported = some GoError.ErrLandlockNotAvailable) ∧
    (Linux.Lock true (some e) Try = none ∧
      Linux.Lock true (some e) Mandatory
        = some (GoError.Join GoError.ErrLandlockFailedToLock e) ∧
      Linux.Lock true (some e) OnlySupported
        = some (GoError.Join GoError.ErrLandlockFailedToLock e) ∧
      Linux.Lock true (some e) OnlyAvailable
        = some (GoError.Join GoError.ErrLandlockFailedToLock e) ∧
      errorsIs (GoError.Join GoError.ErrLandlockFailedToLock e)
        GoError.ErrLandlockFailedToLock = true ∧
      errorsIs (GoError.Join GoError.ErrLandlockFailedToLock e) e = true) ∧
    (Linux.Lock true none Try = none ∧
      Linux.Lock true none OnlyAvailable = none ∧
      Linux.Lock true none OnlySupported = none ∧
      Linux.Lock true none Mandatory = none) := by
  refine ⟨⟨?_, ?_, ?_, ?_⟩, ⟨?_, ?_, ?_, ?_, ?_, ?_⟩, ⟨?_, ?_, ?_, ?_⟩⟩ <;>
    first
    | exact errorsIs_join_left _ _
    | exact errorsIs_join_right _ _
    | simp [Linux.Lock, errorsJoin, Try, OnlyAvailable, OnlySupported, Mandatory]

/-- C2: on the non-Linux variant, among the four enumerated Safety values
`Lock` returns an error exactly for `Mandatory`, and that error is
`ErrNotSupported`; `OnlySupported`, `OnlyAvailable` and `Try` return nil. -/
theorem Lock_default_only_mandatory_fails :
    Default.Lock Mandatory = some GoError.ErrNotSupported ∧
    Default.Lock OnlySupported = none ∧
    Default.Lock OnlyAvailable = none ∧
    Default.Lock Try = none ∧
    (∀ s : Safety, s = Mandatory ∨ s = OnlySupported ∨ s = OnlyAvailable ∨ s = Try →
      ((Default.Lock s).isSome = true ↔ s = Mandatory)) := by
  refine ⟨by decide, by decide, by decide, by decide, ?_⟩
  intro s hs
  rcases hs with h | h | h | h <;> subst h <;> decide

/-- Witness for C2: the equivalence instantiated at `OnlySupported`. -/
theorem Lock_default_only_mandatory_fails_witness :
    ((Default.Lock OnlySupported).isSome = true ↔ OnlySupported = Mandatory) :=
  Lock_default_only_mandatory_fails.2.2.2.2 OnlySupported (Or.inr (Or.inl rfl))

/-! ## Rule compiler: bitmasks -/

/-- One loop iteration of `Path.access` ORs the letter's mask into `allow`. -/
theorem accessStep_eq (p : Path) (v : Int) (allow : Nat) (c : Char) :
    accessStep p v allow c = allow ||| letterMask p.dir v c := by
  unfold accessStep letterMask ifelse
  by_cases hr : c = 'r'
  · cases hd : p.dir <;> simp [hr]
  · by_cases hw : c = 'w'
    · by_cases h3 : v ≥ 3 <;> simp [hr, hw, h3, Nat.or_assoc]
    · by_cases hx : c = 'x'
      · simp [hr, hw, hx]
      · by_cases hc : c = 'c'
        · cases hd : p.dir <;> by_cases h2 : v ≥ 2 <;> simp [hr, hw, hx, hc, h2, Nat.or_assoc]
        · simp [hr, hw, hx, hc]

/-- The loop of `Path.access`, started from any accumulator. -/
theorem foldl_accessStep (p : Path) (v : Int) (mode : GoString) (allow : Nat) :
    mode.foldl (accessStep p v) allow = allow ||| orOfLetters p.dir v mode := by
  induction mode generalizing allow with
  | nil => simp [orOfLetters]
  | cons c cs ih =>
    rw [List.foldl_cons, ih, accessStep_eq]
    simp [orOfLetters, Nat.or_assoc]

/-- The method `Path.access` is the OR of the per-letter masks. -/
theorem access_eq_orOfLetters (p : Path) (v : Int) :
    p.access v = orOfLetters p.dir v p.mode := by
  unfold Path.access
  rw [foldl_accessStep]
  simp

theorem orOfLetters_cons (dir : Bool) (v : Int) (c : Char) (cs : GoString) :
    orOfLetters dir v (c :: cs) = letterMask dir v c ||| orOfLetters dir v cs := by
  simp [orOfLetters]

/-- If every letter's mask lies inside `M`, so does the OR over a mode. -/
theorem orOfLetters_subset (dir : Bool) (v : Int) (M : Nat)
    (h : ∀ c, letterMask dir v c ||| M = M) (mode : GoString) :
    orOfLetters dir v mode ||| M = M := by
  induction mode with
  | nil => simp [orOfLetters]
  | cons c cs ih => rw [orOfLetters_cons, Nat.or_assoc, ih, h]

/-- If every letter's mask is disjoint from `B`, so is the OR over a mode. -/
theorem orOfLetters_disjoint (dir : Bool) (v : Int) (B : Nat)
    (h : ∀ c, letterMask dir v c &&& B = 0) (mode : GoString) :
    orOfLetters dir v mode &&& B = 0 := by
  induction mode with
  | nil => simp [orOfLetters]
  | cons c cs ih =>
    rw [orOfLetters_cons, Nat.and_comm, Nat.and_or_distrib_left, Nat.and_comm B, h,
      Nat.and_comm B, ih]
    rfl

/-- A letter's mask never contains a bit outside the fourteen it can grant
(all of `0x7fff` except make-char). -/
theorem letterMask_subset_grantable (dir : Bool) (v : Int) (c : Char) :
    letterMask dir v c ||| 0x7fbf = 0x7fbf := by
  unfold letterMask
  split_ifs <;> cases dir <;> simp_all <;> decide

theorem letterMask_disjoint_makeChar (dir : Bool) (v : Int) (c : Char) :
    letterMask dir v c &&& fsMakeChar = 0 := by
  unfold letterMask
  split_ifs <;> cases dir <;> simp_all <;> decide

/-- The mask of a letter grows with the capability level. -/
theorem letterMask_mono (dir : Bool) (v v' : Int) (h : v ≤ v') (c : Char) :
    letterMask dir v c ||| letterMask dir v' c = letterMask dir v' c := by
  unfold letterMask
  by_cases h3 : v ≥ 3 <;> by_cases h3' : v' ≥ 3 <;> by_cases h2 : v ≥ 2 <;>
    by_cases h2' : v' ≥ 2 <;> first
    | omega
    | (split_ifs <;> cases dir <;> simp_all <;> decide)

theorem lor_lor_lor_comm (a b c d : Nat) : (a ||| b) ||| (c ||| d) = (a ||| c) ||| (b ||| d) := by
  rw [Nat.or_assoc, Nat.or_assoc, ← Nat.or_assoc b c d, Nat.or_comm b c, Nat.or_assoc c b d]

theorem orOfLetters_mono (dir : Bool) (v v' : Int) (h : v ≤ v') (mode : GoString) :
    orOfLetters dir v mode ||| orOfLetters dir v' mode = orOfLetters dir v' mode := by
  induction mode with
  | nil => simp [orOfLetters]
  | cons c cs ih =>
    rw [orOfLetters_cons, orOfLetters_cons, lor_lor_lor_comm, ih, letterMask_mono dir v v' h]

/-- On a non-directory rule a letter grants at most execute, write-file,
read-file and truncate. -/
theorem letterMask_file_subset (v : Int) (c : Char) :
    letterMask false v c ||| (fsExecute ||| fsWriteFile ||| fsReadFile ||| fsTruncate)
      = fsExecute ||| fsWriteFile ||| fsReadFile ||| fsTruncate := by
  unfold letterMask
  split_ifs <;> simp_all <;> decide

theorem letterMask_file_disjoint (v : Int) (c : Char) :
    letterMask false v c &&&
      (fsMakeRegular ||| fsMakeSocket ||| fsMakeFifo ||| fsMakeBlock ||| fsMakeChar |||
        fsMakeSymlink ||| fsMakeDir ||| fsRemoveFile ||| fsRemoveDir ||| fsRefer ||| fsReadDir)
      = 0 := by
  unfold letterMask
  split_ifs <;> simp_all <;> decide

theorem orOfLetters_file_filter_c (v : Int) (mode : GoString) :
    orOfLetters false v (mode.filter (fun ch => ch != 'c')) = orOfLetters false v mode := by
  induction mode with
  | nil => rfl
  | cons c cs ih =>
    by_cases hc : c = 'c'
    · subst hc
      rw [orOfLetters_cons]
      have h0 : letterMask false v 'c' = 0 := by simp [letterMask]
      rw [h0, Nat.zero_or]
      simpa using ih
    · have hf : List.filter (fun ch => ch != 'c') (c :: cs)
          = c :: List.filter (fun ch => ch != 'c') cs := by
        simp [List.filter_cons, hc]
      rw [hf, orOfLetters_cons, orOfLetters_cons, ih]

/-- C3: `Path.access` is the bitwise OR, over the letters of the mode, of the
per-letter mask of the specification (`letterMask`: r gives read-file, and
read-dir on a directory; w gives write-file, and truncate exactly from level 3;
x gives execute; c gives, on a directory only, the eight make and remove bits,
and refer exactly from level 2); no other bit is set, and make-char never is. -/
theorem access_is_or_of_letter_masks (p : Path) (v : Int) :
    p.access v = (p.mode.map (letterMask p.dir v)).foldr (fun m acc => m ||| acc) 0 ∧
    p.access v &&& fsMakeChar = 0 ∧
    p.access v ||| 0x7fbf = 0x7fbf := by
  refine ⟨access_eq_orOfLetters p v, ?_, ?_⟩
  · rw [access_eq_orOfLetters]
    exact orOfLetters_disjoint p.dir v fsMakeChar (letterMask_disjoint_makeChar p.dir v) p.mode
  · rw [access_eq_orOfLetters]
    exact orOfLetters_subset p.dir v 0x7fbf (letterMask_subset_grantable p.dir v) p.mode

/-- C4: the compiled bitmask is monotone in the capability level (every bit set
at level `v` is set at any level `v'` above it); and for a directory rule with
mode "c" the mask at level 2 is the mask at level 1 plus exactly the refer bit,
which level 1 lacks, while level 3 gives the same mask as level 2. -/
theorem access_monotone_in_level :
    (∀ (p : Path) (v v' : Int), v ≤ v' → p.access v ||| p.access v' = p.access v') ∧
    (∀ path : GoString,
      (Path.mk ['c'] path true).access 2 = (Path.mk ['c'] path true).access 1 ||| fsRefer ∧
      (Path.mk ['c'] path true).access 1 &&& fsRefer = 0 ∧
      (Path.mk ['c'] path true).access 1 ≠ (Path.mk ['c'] path true).access 2 ∧
      (Path.mk ['c'] path true).access 3 = (Path.mk ['c'] path true).access 2) := by
  refine ⟨?_, ?_⟩
  · intro p v v' h
    rw [access_eq_orOfLetters, access_eq_orOfLetters]
    exact orOfLetters_mono p.dir v v' h p.mode
  · intro path
    simp only [access_eq_orOfLetters, orOfLetters, letterMask]
    refine ⟨by decide, by decide, by decide, by decide⟩

/-- Witness for C4: monotonicity instantiated at the rule `Dir("/tmp", "rwc")`
between levels 1 and 3. -/
theorem access_monotone_in_level_witness :
    (Path.mk ['r', 'w', 'c'] ['/', 't', 'm', 'p'] true).access 1 |||
        (Path.mk ['r', 'w', 'c'] ['/', 't', 'm', 'p'] true).access 3
      = (Path.mk ['r', 'w', 'c'] ['/', 't', 'm', 'p'] true).access 3 :=
  access_monotone_in_level.1 (Path.mk ['r', 'w', 'c'] ['/', 't', 'm', 'p'] true) 1 3 (by decide)

/-- C5: a non-directory rule, whatever its mode and the capability level,
compiles to a subset of execute, write-file, read-file and truncate: none of
the make, remove, refer or read-dir bits is ever set. -/
theorem file_rule_cannot_create_or_delete (mode path : GoString) (v : Int) :
    (Path.mk mode path false).access v |||
        (fsExecute ||| fsWriteFile ||| fsReadFile ||| fsTruncate)
      = fsExecute ||| fsWriteFile ||| fsReadFile ||| fsTruncate ∧
    (Path.mk mode path false).access v &&&
        (fsMakeRegular ||| fsMakeSocket ||| fsMakeFifo ||| fsMakeBlock ||| fsMakeChar |||
          fsMakeSymlink ||| fsMakeDir ||| fsRemoveFile ||| fsRemoveDir ||| fsRefer |||
          fsReadDir)
      = 0 := by
  refine ⟨?_, ?_⟩
  · rw [access_eq_orOfLetters]
    exact orOfLetters_subset false v _ (letterMask_file_subset v) mode
  · rw [access_eq_orOfLetters]
    exact orOfLetters_disjoint false v _ (letterMask_file_disjoint v) mode

/-- C6: on a non-directory rule the letter c contributes nothing: the bitmask
is that of the same rule with every c removed from the mode, and a
non-directory rule with mode "c" compiles to 0. -/
theorem access_file_ignores_c (mode path : GoString) (v : Int) :
    (Path.mk mode path false).access v
      = (Path.mk (mode.filter (fun ch => ch != 'c')) path false).access v ∧
    (Path.mk ['c'] path false).access v = 0 := by
  refine ⟨?_, ?_⟩
  · rw [access_eq_orOfLetters, access_eq_orOfLetters]
    exact (orOfLetters_file_filter_c v mode).symm
  · rw [access_eq_orOfLetters]
    simp [orOfLetters, letterMask]

/-- C7: `capabilities()` contains the thirteen level-1 bits (together 0x1fff),
contains refer (0x2000) exactly when the level is at least 2, contains truncate
(0x4000) exactly when the level is at least 3, and contains nothing else. -/
theorem capabilities_bits (v : Int) :
    (fsExecute ||| fsWriteFile ||| fsReadFile ||| fsReadDir ||| fsRemoveFile ||| fsRemoveDir |||
      fsMakeChar ||| fsMakeDir ||| fsMakeRegular ||| fsMakeSocket ||| fsMakeFifo |||
      fsMakeBlock ||| fsMakeSymlink) = 0x1fff ∧
    fsRefer = 0x2000 ∧ fsTruncate = 0x4000 ∧
    capabilities v &&& 0x1fff = 0x1fff ∧
    (capabilities v &&& fsRefer = fsRefer ↔ 2 ≤ v) ∧
    (capabilities v &&& fsTruncate = fsTruncate ↔ 3 ≤ v) ∧
    capabilities v ||| (0x1fff ||| fsRefer ||| fsTruncate) = 0x1fff ||| fsRefer ||| fsTruncate := by
  refine ⟨by decide, by decide, by decide, ?_⟩
  unfold capabilities
  by_cases h2 : v ≥ 2 <;> by_cases h3 : v ≥ 3
  · simp only [h2, h3, if_true]
    refine ⟨by decide, by decide, by decide, by decide⟩
  · simp only [h2, h3, if_true, if_false]
    refine ⟨by decide, by decide, by decide, by decide⟩
  · omega
  · simp only [h2, h3, if_false]
    refine ⟨by decide, by decide, by decide, by decide⟩

/-! ## Parsing -/

theorem char_eq_of_toNat_eq {c d : Char} (h : c.toNat = d.toNat) : c = d := by
  rw [← Char.ofNat_toNat c, ← Char.ofNat_toNat d, h]

theorem utf8EncodeChar_ne_nil (c : Char) : utf8EncodeChar c ≠ [] := by
  unfold utf8EncodeChar
  simp only
  split_ifs <;> simp

theorem len_eq_zero_iff (s : GoString) : len s = 0 ↔ s = [] := by
  cases s with
  | nil => simp [len, utf8Bytes]
  | cons c cs =>
    have h := utf8EncodeChar_ne_nil c
    simp [len, utf8Bytes, List.flatMap_cons, h]

/-- The byte loop of `IsProperMode` over the encoding of one character
followed by more bytes. -/
theorem IsProperMode_loop_append (c : Char) (rest : List Nat) :
    IsProperMode.loop (utf8EncodeChar c ++ rest) = (isModeLetter c && IsProperMode.loop rest) := by
  have hr : ('r' : Char).toNat = 114 := by decide
  have hw : ('w' : Char).toNat = 119 := by decide
  have hc : ('c' : Char).toNat = 99 := by decide
  have hx : ('x' : Char).toNat = 120 := by decide
  have key : ∀ d : Char, (c = d) = (c.toNat = d.toNat) := fun d =>
    propext ⟨fun h => by rw [h], char_eq_of_toNat_eq⟩
  unfold utf8EncodeChar isModeLetter
  simp only [key, hr, hw, hc, hx]
  by_cases h1 : c.toNat < 0x80
  · simp only [h1, if_true, List.singleton_append, IsProperMode.loop, hr, hw, hc, hx]
    by_cases h : c.toNat = 114 ∨ c.toNat = 119 ∨ c.toNat = 99 ∨ c.toNat = 120
    · rw [if_pos h]
      rcases h with h | h | h | h <;> simp [h]
    · rw [if_neg h]
      simp only [not_or] at h
      simp [h.1, h.2.1, h.2.2.1, h.2.2.2]
  · have n1 : c.toNat ≠ 114 := by omega
    have n2 : c.toNat ≠ 119 := by omega
    have n3 : c.toNat ≠ 99 := by omega
    have n4 : c.toNat ≠ 120 := by omega
    simp only [h1, if_false, n1, n2, n3, n4, decide_False, Bool.or_self, Bool.false_and]
    split_ifs <;> simp only [List.cons_append, IsProperMode.loop, hr, hw, hc, hx] <;>
      rw [if_neg (by omega)]

theorem IsProperMode_loop_utf8Bytes (mode : GoString) :
    IsProperMode.loop (utf8Bytes mode) = mode.all isModeLetter := by
  induction mode with
  | nil => rfl
  | cons c cs ih =>
    have h : utf8Bytes (c :: cs) = utf8EncodeChar c ++ utf8Bytes cs := by
      simp [utf8Bytes, List.flatMap_cons]
    rw [h, IsProperMode_loop_append, ih, List.all_cons]

/-- The function `IsProperMode` accepts exactly the non-empty strings of mode
letters. -/
theorem IsProperMode_eq (mode : GoString) :
    IsProperMode mode = (mode != [] && mode.all isModeLetter) := by
  unfold IsProperMode
  by_cases h : mode = []
  · subst h
    simp [len, utf8Bytes]
  · have h0 : len mode ≠ 0 := fun h0 => h ((len_eq_zero_iff mode).1 h0)
    rw [if_neg h0, IsProperMode_loop_utf8Bytes]
    simp [h]

/-- The call `SplitN s sep 3`, unfolded. -/
theorem SplitN_three (s : GoString) (sep : Char) :
    SplitN s sep 3 =
      if sep ∈ s then
        if sep ∈ (s.dropWhile (fun ch => ch != sep)).drop 1 then
          [s.takeWhile (fun ch => ch != sep),
            ((s.dropWhile (fun ch => ch != sep)).drop 1).takeWhile (fun ch => ch != sep),
            ((((s.dropWhile (fun ch => ch != sep)).drop 1).dropWhile
              (fun ch => ch != sep)).drop 1)]
        else
          [s.takeWhile (fun ch => ch != sep), (s.dropWhile (fun ch => ch != sep)).drop 1]
      else [s] := by
  simp only [SplitN]
  split_ifs <;> rfl

theorem takeWhile_ne_append (l rest : GoString) (sep : Char) (h : sep ∉ l) :
    (l ++ sep :: rest).takeWhile (fun ch => ch != sep) = l := by
  induction l with
  | nil => simp
  | cons a l ih =>
    have ha : a ≠ sep := fun e => h (by simp [e])
    have hl : sep ∉ l := fun e => h (by simp [e])
    simp [List.takeWhile_cons, ha, ih hl]

theorem dropWhile_ne_append (l rest : GoString) (sep : Char) (h : sep ∉ l) :
    (l ++ sep :: rest).dropWhile (fun ch => ch != sep) = sep :: rest := by
  induction l with
  | nil => simp
  | cons a l ih =>
    have ha : a ≠ sep := fun e => h (by simp [e])
    have hl : sep ∉ l := fun e => h (by simp [e])
    simp [List.dropWhile_cons, ha, ih hl]

/-- Splitting `kind:mode:path` gives back the three parts when neither `kind`
nor `mode` contains the separator. -/
theorem SplitN_concat (kind mode path : GoString) (sep : Char)
    (hk : sep ∉ kind) (hm : sep ∉ mode) :
    SplitN (kind ++ sep :: (mode ++ sep :: path)) sep 3 = [kind, mode, path] := by
  rw [SplitN_three]
  have h1 : sep ∈ kind ++ sep :: (mode ++ sep :: path) := by simp
  have h2 : sep ∈ mode ++ sep :: path := by simp
  simp only [takeWhile_ne_append _ _ _ hk, dropWhile_ne_append _ _ _ hk,
    takeWhile_ne_append _ _ _ hm, dropWhile_ne_append _ _ _ hm, List.drop_succ_cons,
    List.drop_zero, h1, h2, if_true]

/-- Count of separators: one for the first occurrence plus those after it. -/
theorem count_sep_of_mem (s : GoString) (sep : Char) (h : sep ∈ s) :
    s.count sep = 1 + ((s.dropWhile (fun ch => ch != sep)).drop 1).count sep := by
  induction s with
  | nil => simp at h
  | cons a l ih =>
    by_cases ha : a = sep
    · subst ha
      simp [List.dropWhile_cons, Nat.add_comm]
    · have hl : sep ∈ l := by
        rcases List.mem_cons.1 h with e | e
        · exact absurd e.symm ha
        · exact e
      have hne : (a == sep) = false := by simpa using ha
      rw [List.count_cons, ih hl, hne]
      simp [List.dropWhile_cons, ha]

theorem two_le_count_sep_iff (s : GoString) (sep : Char) :
    2 ≤ s.count sep ↔ sep ∈ s ∧ sep ∈ (s.dropWhile (fun ch => ch != sep)).drop 1 := by
  by_cases h : sep ∈ s
  · rw [count_sep_of_mem s sep h]
    by_cases h2 : sep ∈ (s.dropWhile (fun ch => ch != sep)).drop 1
    · have := List.count_pos_iff.2 h2
      simp only [h, h2, and_self, iff_true]
      omega
    · have := List.count_eq_zero.2 h2
      simp only [h, h2, and_false, iff_false]
      omega
  · have := List.count_eq_zero.2 h
    simp only [h, false_and, iff_false]
    omega

/-- Trimming leaves alone a string that neither starts nor ends with white
space. -/
theorem TrimSpace_eq_self (s : GoString)
    (hhead : ∀ c, s.head? = some c → IsSpace c = false)
    (hlast : ∀ c, s.getLast? = some c → IsSpace c = false) :
    TrimSpace s = s := by
  unfold TrimSpace
  have h1 : s.dropWhile IsSpace = s := by
    cases s with
    | nil => rfl
    | cons a l =>
      have := hhead a rfl
      simp [List.dropWhile_cons, this]
  rw [h1, List.rdropWhile_eq_self_iff]
  intro hl
  have := hlast (s.getLast hl) (List.getLast?_eq_getLast s hl)
  simp [this]

theorem IsSpace_colon : IsSpace ':' = false := by decide

/-- Parsing `kind:mode:path` is `parsePath kind mode path` when `kind` and
`mode` hold no colon, `kind` does not start with white space and `path` does
not end with white space. -/
theorem ParsePath_concat (kind mode path : GoString)
    (hk : ':' ∉ kind) (hm : ':' ∉ mode)
    (hhead : ∀ c, kind.head? = some c → IsSpace c = false)
    (hlast : ∀ c, path.getLast? = some c → IsSpace c = false) :
    ParsePath (kind ++ [':'] ++ mode ++ [':'] ++ path) = parsePath kind mode path := by
  have hs : kind ++ [':'] ++ mode ++ [':'] ++ path = kind ++ ':' :: (mode ++ ':' :: path) := by
    simp
  rw [hs]
  have htrim : TrimSpace (kind ++ ':' :: (mode ++ ':' :: path))
      = kind ++ ':' :: (mode ++ ':' :: path) := by
    apply TrimSpace_eq_self
    · intro c hc
      cases kind with
      | nil =>
        simp at hc
        subst hc
        exact IsSpace_colon
      | cons a l => exact hhead c (by simpa using hc)
    · intro c hc
      rcases List.eq_nil_or_concat path with hp | ⟨l, b, hp⟩
      · subst hp
        have h' : kind ++ ':' :: (mode ++ [':']) = (kind ++ ':' :: mode) ++ [':'] := by simp
        rw [h', List.getLast?_concat] at hc
        cases hc
        exact IsSpace_colon
      · subst hp
        rw [List.concat_eq_append] at hc hlast
        have h' : kind ++ ':' :: (mode ++ ':' :: (l ++ [b]))
            = (kind ++ ':' :: (mode ++ ':' :: l)) ++ [b] := by simp
        rw [h', List.getLast?_concat] at hc
        exact hlast c (by rw [List.getLast?_concat]; exact hc)
  have hlen : len (kind ++ ':' :: (mode ++ ':' :: path)) ≠ 0 := by
    intro h0
    have := (len_eq_zero_iff _).1 h0
    simp at this
  unfold ParsePath
  simp only [htrim, if_neg hlen, SplitN_concat kind mode path ':' hk hm]

theorem sameOutcome_self (r : Except GoError Path) : sameOutcome r r = true := by
  cases r <;> simp [sameOutcome, Path.Equal]

theorem isModeLetter_ne_colon (mode : GoString) (h : mode.all isModeLetter = true) :
    ':' ∉ mode := by
  intro hmem
  have := List.all_eq_true.1 h ':' hmem
  exact absurd this (by decide)

/-- The function `parsePath` on valid arguments. -/
theorem parsePath_ok (kind mode path : GoString) (hkind : kind = ['d'] ∨ kind = ['f'])
    (hmode : IsProperMode mode = true) (hpath : path ≠ []) :
    parsePath kind mode path
      = Except.ok { mode := mode, path := path, dir := decide (kind = ['d']) } := by
  unfold parsePath
  rcases hkind with h | h <;> subst h <;> simp [IsProperType, IsProperPath, hmode, hpath, ifelse]

/-- The error of `parsePath`, in the order the checks are made. -/
theorem errorOf_parsePath (k m p : GoString) :
    errorOf (parsePath k m p) =
      if k ≠ ['d'] ∧ k ≠ ['f'] then some GoError.ErrImproperType
      else if m = [] ∨ m.any (fun ch => !isModeLetter ch) then some GoError.ErrImproperMode
      else if p = [] then some GoError.ErrImproperPath
      else none := by
  unfold parsePath
  rw [IsProperMode_eq]
  by_cases hk : k ≠ ['d'] ∧ k ≠ ['f']
  · rw [if_pos hk]
    simp [IsProperType, hk.1, hk.2, errorOf]
  · rw [if_neg hk]
    have hk' : IsProperType k = true := by
      simp only [not_and_or, not_not] at hk
      rcases hk with h | h <;> simp [IsProperType, h]
    by_cases hm : m = [] ∨ m.any (fun ch => !isModeLetter ch)
    · rw [if_pos hm]
      have : (m != [] && m.all isModeLetter) = false := by
        rcases hm with h | h
        · simp [h]
        · have : m.all isModeLetter = false := by
            rw [Bool.eq_false_iff]
            intro hall
            rw [List.any_eq_true] at h
            obtain ⟨x, hx, hx'⟩ := h
            have := List.all_eq_true.1 hall x hx
            simp [this] at hx'
          simp [this]
      simp [hk', this, errorOf]
    · rw [if_neg hm]
      have hm' : (m != [] && m.all isModeLetter) = true := by
        simp only [not_or] at hm
        have h1 : m ≠ [] := hm.1
        have h2 : m.all isModeLetter = true := by
          rw [List.all_eq_true]
          intro x hx
          by_contra hne
          exact hm.2 (List.any_eq_true.2 ⟨x, hx, by simpa using hne⟩)
        simp [h1, h2]
      by_cases hp : p = []
      · simp [hk', hm', hp, IsProperPath, errorOf]
      · simp [hk', hm', hp, IsProperPath, errorOf]

/-- C8, as stated, fails: the shorthand is trimmed and cut at its first two
colons, so it differs from `parsePath` on the three parts when the path ends
with white space, when the kind starts with white space, or when the mode or the
kind contains a colon. -/
theorem ParsePath_concat_counterexample :
    sameOutcome (ParsePath (['d'] ++ [':'] ++ ['r'] ++ [':'] ++ ['/', 't', 'm', 'p', ' ']))
        (parsePath ['d'] ['r'] ['/', 't', 'm', 'p', ' ']) = false ∧
    sameOutcome (ParsePath ([' ', 'd'] ++ [':'] ++ ['r'] ++ [':'] ++ ['/', 'x']))
        (parsePath [' ', 'd'] ['r'] ['/', 'x']) = false ∧
    sameOutcome (ParsePath (['d'] ++ [':'] ++ ['r', ':', 'w'] ++ [':'] ++ ['/', 'x']))
        (parsePath ['d'] ['r', ':', 'w'] ['/', 'x']) = false ∧
    sameOutcome (ParsePath (['d', ':', 'r'] ++ [':'] ++ ['w'] ++ [':'] ++ ['/', 'x']))
        (parsePath ['d', ':', 'r'] ['w'] ['/', 'x']) = false := by
  decide

/-- C8 (amended): for every `kind` and `mode` without a colon, `kind` not
starting with white space and `path` not ending with white space,
`ParsePath(kind + ":" + mode + ":" + path)` has the same outcome as
`parsePath(kind, mode, path)`: an `Equal` rule or the same error; the path may
contain colons. -/
theorem ParsePath_concat_same_outcome (kind mode path : GoString)
    (hk : ':' ∉ kind) (hm : ':' ∉ mode)
    (hhead : ∀ c, kind.head? = some c → IsSpace c = false)
    (hlast : ∀ c, path.getLast? = some c → IsSpace c = false) :
    sameOutcome (ParsePath (kind ++ [':'] ++ mode ++ [':'] ++ path))
      (parsePath kind mode path) = true := by
  rw [ParsePath_concat kind mode path hk hm hhead hlast]
  exact sameOutcome_self _

/-- Witness for C8 (amended): kind "d", mode "rw", path "/a:b". -/
theorem ParsePath_concat_same_outcome_witness :
    sameOutcome (ParsePath (['d'] ++ [':'] ++ ['r', 'w'] ++ [':'] ++ ['/', 'a', ':', 'b']))
      (parsePath ['d'] ['r', 'w'] ['/', 'a', ':', 'b']) = true :=
  ParsePath_concat_same_outcome ['d'] ['r', 'w'] ['/', 'a', ':', 'b']
    (by decide) (by decide)
    (fun c h => by cases h; decide)
    (fun c h => by cases h; decide)

/-- C9: for `kind` "d" or "f", a non-empty mode of letters r, w, c, x and a
non-empty path not ending with white space (colons allowed in it),
`ParsePath(kind + ":" + mode + ":" + path)` succeeds with the rule whose mode is
`mode`, whose path is `path` and whose directory flag is true exactly when
`kind` is "d". -/
theorem ParsePath_wellformed (kind mode path : GoString)
    (hkind : kind = ['d'] ∨ kind = ['f'])
    (hmode : mode ≠ [])
    (hletters : ∀ c ∈ mode, c = 'r' ∨ c = 'w' ∨ c = 'c' ∨ c = 'x')
    (hpath : path ≠ [])
    (hlast : ∀ c, path.getLast? = some c → IsSpace c = false) :
    ParsePath (kind ++ [':'] ++ mode ++ [':'] ++ path)
      = Except.ok { mode := mode, path := path, dir := decide (kind = ['d']) } := by
  have hall : mode.all isModeLetter = true := by
    rw [List.all_eq_true]
    intro c hc
    rcases hletters c hc with h | h | h | h <;> subst h <;> decide
  have hproper : IsProperMode mode = true := by
    rw [IsProperMode_eq]
    simp [hmode, hall]
  have hk : ':' ∉ kind := by
    rcases hkind with h | h <;> subst h <;> decide
  have hhead : ∀ c, kind.head? = some c → IsSpace c = false := by
    intro c hc
    rcases hkind with h | h <;> subst h <;> cases hc <;> decide
  rw [ParsePath_concat kind mode path hk (isModeLetter_ne_colon mode hall) hhead hlast]
  exact parsePath_ok kind mode path hkind hproper hpath

/-- Witness for C9: "d:rw:/tmp" is a directory rule with mode rw and path
/tmp. -/
theorem ParsePath_wellformed_witness :
    ParsePath (['d'] ++ [':'] ++ ['r', 'w'] ++ [':'] ++ ['/', 't', 'm', 'p'])
      = Except.ok { mode := ['r', 'w'], path := ['/', 't', 'm', 'p'], dir := true } :=
  ParsePath_wellformed ['d'] ['r', 'w'] ['/', 't', 'm', 'p']
    (Or.inl rfl) (by decide) (by decide) (by decide)
    (fun c h => by cases h; decide)

/-- C10: `ParsePath` fails with one error kind per violation, as the
specification classifies them (`ParsePathErrorSpec`): `ErrImproperPath` when
the trimmed input is empty or has fewer than two colons; else, on the split at
the first two colons, `ErrImproperType`, then `ErrImproperMode`, then
`ErrImproperPath`, and success otherwise.  In particular "x:r:/x", "f::/x" and
"" give `ErrImproperType`, `ErrImproperMode` and `ErrImproperPath`. -/
theorem ParsePath_error_kinds :
    (∀ s : GoString, errorOf (ParsePath s) = ParsePathErrorSpec s) ∧
    ParsePath ['x', ':', 'r', ':', '/', 'x'] = Except.error GoError.ErrImproperType ∧
    ParsePath ['f', ':', ':', '/', 'x'] = Except.error GoError.ErrImproperMode ∧
    ParsePath [] = Except.error GoError.ErrImproperPath := by
  refine ⟨?_, by decide, by decide, by decide⟩
  intro s
  unfold ParsePath ParsePathErrorSpec
  simp only
  generalize TrimSpace s = t
  by_cases ht : t = []
  · subst ht
    simp [len, utf8Bytes, errorOf]
  · have hlen : len t ≠ 0 := fun h0 => ht ((len_eq_zero_iff t).1 h0)
    rw [if_neg hlen, SplitN_three]
    by_cases h2 : 2 ≤ t.count ':'
    · have hcount : ¬(t = [] ∨ t.count ':' < 2) := by
        simp only [not_or, not_lt]
        exact ⟨ht, h2⟩
      obtain ⟨m1, m2⟩ := (two_le_count_sep_iff t ':').1 h2
      rw [if_neg hcount, if_pos m1, if_pos m2]
      exact errorOf_parsePath _ _ _
    · have hcount : t = [] ∨ t.count ':' < 2 := Or.inr (by omega)
      rw [if_pos hcount]
      have hnot := fun h => h2 ((two_le_count_sep_iff t ':').2 h)
      by_cases m1 : ':' ∈ t
      · have m2 : ':' ∉ (t.dropWhile (fun ch => ch != ':')).drop 1 := fun h => hnot ⟨m1, h⟩
        rw [if_pos m1, if_neg m2]
        rfl
      · rw [if_neg m1]
        rfl

/-- C11 at its failing input: the doc comment of `ParsePath` says a mode is
zero or more of r, w, c, x, but on the empty mode the code returns an error:
"f::/x" and "d::/x" give `ErrImproperMode`, since `IsProperMode` returns false
on a mode of length zero. -/
theorem ParsePath_rejects_empty_mode :
    ParsePath (['f'] ++ [':'] ++ [] ++ [':'] ++ ['/', 'x'])
        = Except.error GoError.ErrImproperMode ∧
    ParsePath (['d'] ++ [':'] ++ [] ++ [':'] ++ ['/', 'x'])
        = Except.error GoError.ErrImproperMode ∧
    IsProperMode [] = false := by
  decide

/-- The parser on modes made of letters: for `kind` "d" or "f", a non-empty
path not ending with white space and a mode made only of the letters r, w, c,
x, `ParsePath(kind + ":" + mode + ":" + path)` returns a rule and no error when
the mode has at least one letter, and `ErrImproperMode` when the mode is
empty. -/
theorem ParsePath_mode_letters (kind mode path : GoString)
    (hkind : kind = ['d'] ∨ kind = ['f'])
    (hletters : ∀ c ∈ mode, c = 'r' ∨ c = 'w' ∨ c = 'c' ∨ c = 'x')
    (hpath : path ≠ [])
    (hlast : ∀ c, path.getLast? = some c → IsSpace c = false) :
    (mode ≠ [] → ∃ p, ParsePath (kind ++ [':'] ++ mode ++ [':'] ++ path) = Except.ok p) ∧
    (mode = [] → ParsePath (kind ++ [':'] ++ mode ++ [':'] ++ path)
      = Except.error GoError.ErrImproperMode) := by
  have hall : mode.all isModeLetter = true := by
    rw [List.all_eq_true]
    intro c hc
    rcases hletters c hc with h | h | h | h <;> subst h <;> decide
  have hk : ':' ∉ kind := by
    rcases hkind with h | h <;> subst h <;> decide
  have hhead : ∀ c, kind.head? = some c → IsSpace c = false := by
    intro c hc
    rcases hkind with h | h <;> subst h <;> cases hc <;> decide
  rw [ParsePath_concat kind mode path hk (isModeLetter_ne_colon mode hall) hhead hlast]
  refine ⟨?_, ?_⟩
  · intro hmode
    have hproper : IsProperMode mode = true := by
      rw [IsProperMode_eq]
      simp [hmode, hall]
    exact ⟨_, parsePath_ok kind mode path hkind hproper hpath⟩
  · intro hmode
    subst hmode
    rcases hkind with h | h <;> subst h <;> rfl

/-- The parser on "f:x:/bin/cat": a rule is returned. -/
theorem ParsePath_mode_letters_witness :
    ∃ p, ParsePath (['f'] ++ [':'] ++ ['x'] ++ [':'] ++ ['/', 'b', 'i', 'n', '/', 'c', 'a', 't'])
      = Except.ok p :=
  (ParsePath_mode_letters ['f'] ['x'] ['/', 'b', 'i', 'n', '/', 'c', 'a', 't']
    (Or.inr rfl) (by decide) (by decide)
    (fun c h => by cases h; decide)).1 (by decide)

/-! ## Constructors, equality and hash -/

/-- The function `newPath` returns exactly when path and mode are proper. -/
theorem newPath_eq (path mode : GoString) (dir : Bool) :
    newPath path mode dir =
      if path = [] then Except.error "improper path"
      else if IsProperMode mode = false then Except.error "improper mode"
      else Except.ok { mode := mode, path := path, dir := dir } := by
  unfold newPath IsProperPath
  by_cases hp : path = []
  · simp [hp]
  · cases hm : IsProperMode mode <;> simp [hp]

/-- When it succeeds, `parsePath` returns the rule made of its arguments. -/
theorem parsePath_f_d (mode path : GoString) :
    parsePath ['f'] mode path =
      (if IsProperMode mode = false then Except.error GoError.ErrImproperMode
      else if path = [] then Except.error GoError.ErrImproperPath
      else Except.ok { mode := mode, path := path, dir := false }) ∧
    parsePath ['d'] mode path =
      (if IsProperMode mode = false then Except.error GoError.ErrImproperMode
      else if path = [] then Except.error GoError.ErrImproperPath
      else Except.ok { mode := mode, path := path, dir := true }) := by
  unfold parsePath IsProperPath
  by_cases hp : path = [] <;> cases hm : IsProperMode mode <;>
    simp [hp, IsProperType, ifelse]

/-- C12: the constructors validate as `parsePath` does.  `File(path, mode)`
returns a rule exactly when `parsePath("f", mode, path)` succeeds, and the two
rules are then `Equal`, with directory flag false; the same for `Dir` and "d",
with directory flag true; in every other case `File` and `Dir` panic. -/
theorem constructors_validate_as_parsePath (path mode : GoString) :
    ((∃ p, File path mode = Except.ok p) ↔ (∃ o, parsePath ['f'] mode path = Except.ok o)) ∧
    (∀ p o, File path mode = Except.ok p → parsePath ['f'] mode path = Except.ok o →
      Path.Equal (some p) (some o) = true ∧ p.dir = false) ∧
    ((∃ e, parsePath ['f'] mode path = Except.error e) → ∃ msg, File path mode = Except.error msg) ∧
    ((∃ p, Dir path mode = Except.ok p) ↔ (∃ o, parsePath ['d'] mode path = Except.ok o)) ∧
    (∀ p o, Dir path mode = Except.ok p → parsePath ['d'] mode path = Except.ok o →
      Path.Equal (some p) (some o) = true ∧ p.dir = true) ∧
    ((∃ e, parsePath ['d'] mode path = Except.error e) → ∃ msg, Dir path mode = Except.error msg) := by
  unfold File Dir
  rw [newPath_eq, newPath_eq, (parsePath_f_d mode path).1, (parsePath_f_d mode path).2]
  by_cases hp : path = [] <;> cases hm : IsProperMode mode <;>
    simp [hp, Path.Equal]

/-- Witness for C12: `File("/dev/null", "rw")` and
`parsePath("f", "rw", "/dev/null")` return `Equal` rules, with directory flag
false. -/
theorem constructors_validate_as_parsePath_witness :
    Path.Equal (some { mode := ['r', 'w'], path := "/dev/null".toList, dir := false })
        (some { mode := ['r', 'w'], path := "/dev/null".toList, dir := false }) = true ∧
      (Path.mk ['r', 'w'] "/dev/null".toList false).dir = false :=
  (constructors_validate_as_parsePath "/dev/null".toList ['r', 'w']).2.1 _ _
    (by decide) (by decide)

theorem Equal_iff_aux (p o : Path) :
    Path.Equal (some p) (some o) = true ↔ p.path = o.path ∧ p.dir = o.dir ∧ p.mode = o.mode := by
  unfold Path.Equal
  by_cases h1 : p.mode = o.mode <;> by_cases h2 : p.path = o.path <;>
    by_cases h3 : p.dir = o.dir <;> simp [h1, h2, h3]

/-- C13: for non-nil rules, `Equal` holds exactly when path, directory flag and
mode are all identical; two rules that differ only in the directory flag are
never `Equal`. -/
theorem Equal_iff (p o : Path) (mode path : GoString) :
    (Path.Equal (some p) (some o) = true ↔ p.path = o.path ∧ p.dir = o.dir ∧ p.mode = o.mode) ∧
    Path.Equal (some { mode := mode, path := path, dir := true })
      (some { mode := mode, path := path, dir := false }) = false ∧
    Path.Equal (some { mode := mode, path := path, dir := false })
      (some { mode := mode, path := path, dir := true }) = false := by
  exact ⟨Equal_iff_aux p o, by simp [Path.Equal], by simp [Path.Equal]⟩

/-- C14: the deduplication key is the path alone.  `Hash` returns the path;
`Equal` rules have the same `Hash`; and two rules with the same path but a
different mode or directory flag have the same `Hash` and are not `Equal`. -/
theorem Hash_is_path (p o : Path) :
    p.Hash = p.path ∧
    (Path.Equal (some p) (some o) = true → p.Hash = o.Hash) ∧
    (p.path = o.path → (p.mode ≠ o.mode ∨ p.dir ≠ o.dir) →
      p.Hash = o.Hash ∧ Path.Equal (some p) (some o) = false) := by
  refine ⟨rfl, ?_, ?_⟩
  · intro h
    have := ((Equal_iff_aux p o).1 h).1
    exact this
  · intro hpath hdiff
    refine ⟨hpath, ?_⟩
    rw [Bool.eq_false_iff]
    intro h
    have h' := (Equal_iff_aux p o).1 h
    rcases hdiff with hd | hd
    · exact hd h'.2.2
    · exact hd h'.2.1

/-! ## Bundle filtering -/

/-- The loop of `load`, started from any `result`. -/
theorem load_loop (pathExists : GoString → Bool) (paths result : List Path) :
    paths.foldl (fun result p => if pathExists p.path then result ++ [p] else result) result
      = result ++ paths.filter (fun p => pathExists p.path) := by
  induction paths generalizing result with
  | nil => simp
  | cons a l ih =>
    rw [List.foldl_cons, ih]
    cases h : pathExists a.path <;> simp [List.filter_cons, h]

/-- The function `load` keeps the candidates whose path exists, in order. -/
theorem load_eq_filter (pathExists : GoString → Bool) (paths : List Path) :
    load pathExists paths = paths.filter (fun p => pathExists p.path) := by
  unfold load
  rw [load_loop]
  simp

/-- C17: `load` keeps exactly the existing candidates: a candidate is in the
result exactly when it is in the list and its path exists, with the same
multiplicity as in the candidate list (and none otherwise); the result is empty
when no candidate exists. -/
theorem load_keeps_existing (pathExists : GoString → Bool) (paths : List Path) :
    (∀ p, p ∈ load pathExists paths ↔ p ∈ paths ∧ pathExists p.path = true) ∧
    (∀ p, (load pathExists paths).count p
      = if pathExists p.path then paths.count p else 0) ∧
    ((∀ p ∈ paths, pathExists p.path = false) → load pathExists paths = []) := by
  rw [load_eq_filter]
  refine ⟨?_, ?_, ?_⟩
  · intro p
    simp [List.mem_filter]
  · intro p
    cases h : pathExists p.path
    · have : p ∉ paths.filter (fun p => pathExists p.path) := by
        simp [List.mem_filter, h]
      simpa using List.count_eq_zero.2 this
    · simp only [if_true]
      exact List.count_filter (by simpa using h)
  · intro h
    rw [List.filter_eq_nil_iff]
    intro p hp
    simp [h p hp]

/-- Witness for C17: with nothing on the filesystem, loading the candidates
`File("/etc/hosts", "r")` and `File("/hostname", "r")` gives the empty list. -/
theorem load_keeps_existing_witness :
    load (fun _ => false)
      [{ mode := ['r'], path := "/etc/hosts".toList, dir := false },
       { mode := ['r'], path := "/hostname".toList, dir := false }] = [] :=
  (load_keeps_existing (fun _ => false) _).2.2 (fun _ _ => rfl)

/-! ## Capability probing -/

/-- C18: `abi` (and `Detect`, which calls it) classifies every probe outcome
`(r0, e1)`, with `v = int(r0)`: the error is nil exactly when `e1` is 0 and
`v > 0`, and the version is then `v`; a non-zero `e1` is returned as the error;
`e1 = 0` and `v = 0` give `(0, ErrNotSupported)`; `e1 = 0` and `v < 0` give
`(0, ErrVersionUndetectable)`. -/
theorem abi_classifies (r0 e1 : Nat) :
    Detect r0 e1 = abi r0 e1 ∧
    ((abi r0 e1).2 = none ↔ e1 = 0 ∧ 0 < intOfUintptr r0) ∧
    ((abi r0 e1).2 = none → (abi r0 e1).1 = intOfUintptr r0) ∧
    (e1 ≠ 0 → (abi r0 e1).2 = some (GoError.Errno e1)) ∧
    (e1 = 0 → intOfUintptr r0 = 0 → abi r0 e1 = (0, some GoError.ErrNotSupported)) ∧
    (e1 = 0 → intOfUintptr r0 < 0 → abi r0 e1 = (0, some GoError.ErrVersionUndetectable)) := by
  refine ⟨rfl, ?_⟩
  unfold abi
  simp only
  by_cases he : e1 = 0
  · by_cases hneg : intOfUintptr r0 < 0
    · have h0 : ¬ intOfUintptr r0 = 0 := by omega
      simp [he, hneg, h0]
      omega
    · by_cases h0 : intOfUintptr r0 = 0
      · simp [he, h0]
      · have hpos : 0 < intOfUintptr r0 := by omega
        simp [he, hneg, h0, hpos]
  · simp [he]

/-- Witness for C18: the probe outcomes `(3, 0)`, `(0, 0)`, `(2^64 - 1, 0)` and
`(2^64 - 1, 38)` (the last is how a failing syscall reports `ENOSYS`). -/
theorem abi_classifies_witness :
    abi 3 0 = (3, none) ∧
    abi 0 0 = (0, some GoError.ErrNotSupported) ∧
    abi (2 ^ 64 - 1) 0 = (0, some GoError.ErrVersionUndetectable) ∧
    (abi (2 ^ 64 - 1) 38).2 = some (GoError.Errno 38) :=
  ⟨by decide,
   (abi_classifies 0 0).2.2.2.2.1 rfl (by decide),
   (abi_classifies (2 ^ 64 - 1) 0).2.2.2.2.2 rfl (by decide),
   (abi_classifies (2 ^ 64 - 1) 38).2.2.2.1 (by decide)⟩

/-- C19: after `init`, `Available()` is true exactly when the cached version
is at least 1; and whenever the probe returned zero, a negative value or an
error, `Available()` is false and the cached version is 0. -/
theorem init_caches_level (r0 e1 : Nat) :
    (Available (available_linux.init r0 e1) = true ↔ 1 ≤ (available_linux.init r0 e1).version) ∧
    ((e1 ≠ 0 ∨ intOfUintptr r0 ≤ 0) →
      Available (available_linux.init r0 e1) = false ∧
      (available_linux.init r0 e1).version = 0) ∧
    ((e1 = 0 ∧ 0 < intOfUintptr r0) →
      Available (available_linux.init r0 e1) = true ∧
      (available_linux.init r0 e1).version = intOfUintptr r0) := by
  unfold available_linux.init Available Detect abi
  simp only
  by_cases he : e1 = 0
  · by_cases hneg : intOfUintptr r0 < 0
    · have h0 : ¬ intOfUintptr r0 = 0 := by omega
      simp [he, hneg, h0]
      omega
    · by_cases h0 : intOfUintptr r0 = 0
      · simp [he, h0]
      · have hpos : 0 < intOfUintptr r0 := by omega
        have hle : ¬ intOfUintptr r0 ≤ 0 := by omega
        simp [he, hneg, h0, hpos, hle]
        omega
  · simp [he]

/-- Witness for C19: a probe that fails with `ENOSYS` leaves landlock
unavailable with cached version 0. -/
theorem init_caches_level_witness :
    Available (available_linux.init (2 ^ 64 - 1) 38) = false ∧
      (available_linux.init (2 ^ 64 - 1) 38).version = 0 :=
  (init_caches_level (2 ^ 64 - 1) 38).2.1 (Or.inl (by decide))

/-! ## Enforcement sequence -/

/-- One issued call is a run of its own step. -/
theorem Ran_single (c : Call) (r0 : Int) (e1 : Nat) :
    Ran (errno e1) [{ call := c, r0 := r0, e1 := e1 }] [c.step] := by
  unfold Ran errno
  by_cases h : e1 = 0
  · left
    simp [h]
  · right
    refine ⟨[], { call := c, r0 := r0, e1 := e1 }, by simp, by simp, h, by simp [h], ?_⟩
    simp

/-- A successful run followed by a run is a run of both. -/
theorem Ran_append (res : Option GoError) (ev1 ev2 : List Event) (s1 s2 : List Step)
    (h1 : Ran none ev1 s1) (h2 : Ran res ev2 s2) : Ran res (ev1 ++ ev2) (s1 ++ s2) := by
  rcases h1 with ⟨_, hs1, ok1⟩ | ⟨pre, ev, _, _, _, hres, _⟩
  · rcases h2 with ⟨hres, hs2, ok2⟩ | ⟨pre, ev, hev, okpre, hfail, hres, hpre⟩
    · left
      refine ⟨hres, by simp [hs1, hs2], ?_⟩
      intro e he
      rcases List.mem_append.1 he with h | h
      · exact ok1 e h
      · exact ok2 e h
    · right
      refine ⟨ev1 ++ pre, ev, by simp [hev], ?_, hfail, hres, ?_⟩
      · intro e he
        rcases List.mem_append.1 he with h | h
        · exact ok1 e h
        · exact okpre e h
      · rw [List.map_append, hs1]
        exact (List.prefix_append_right_inj s1).2 hpre
  · cases hres

/-- A failed run stays a run when more steps were to follow. -/
theorem Ran_fail (e : GoError) (ev1 : List Event) (s1 s2 : List Step)
    (h1 : Ran (some e) ev1 s1) : Ran (some e) ev1 (s1 ++ s2) := by
  rcases h1 with ⟨hres, _, _⟩ | ⟨pre, ev, hev, okpre, hfail, hres, hpre⟩
  · cases hres
  · right
    exact ⟨pre, ev, hev, okpre, hfail, hres, hpre.trans (List.prefix_append s1 s2)⟩

theorem errno_some (e1 : Nat) (err : GoError) (h : errno e1 = some err) :
    err = GoError.Errno e1 ∧ e1 ≠ 0 := by
  unfold errno at h
  by_cases h0 : e1 = 0
  · simp [h0] at h
  · simp [h0] at h
    exact ⟨h.symm, h0⟩

/-- The calls of `lockOne` are a run of "open, attach" for its rule. -/
theorem lockOne_ran (k : Kernel) (version : Int) (log : List Event) (p : Path) (fd : Int) :
    ∃ evs, (lockOne k version log p fd).2 = log ++ evs ∧
      Ran (lockOne k version log p fd).1 evs
        [Step.openAnchor p.path, Step.attach (p.access version)] := by
  unfold lockOne syscallOpen add issue
  simp only
  cases hopen : errno (k log (Call.openPath p.path)).2 with
  | some err =>
    refine ⟨[Event.mk (Call.openPath p.path) (k log (Call.openPath p.path)).1
      (k log (Call.openPath p.path)).2], rfl, ?_⟩
    have h := Ran_single (Call.openPath p.path) (k log (Call.openPath p.path)).1
      (k log (Call.openPath p.path)).2
    rw [hopen] at h
    exact Ran_fail err _ [Step.openAnchor p.path] [Step.attach (p.access version)] h
  | none =>
    simp only
    refine ⟨[Event.mk (Call.openPath p.path) (k log (Call.openPath p.path)).1
      (k log (Call.openPath p.path)).2] ++ [_], List.append_assoc _ _ _, ?_⟩
    have h := Ran_single (Call.openPath p.path) (k log (Call.openPath p.path)).1
      (k log (Call.openPath p.path)).2
    rw [hopen] at h
    exact Ran_append _ _ _ [Step.openAnchor p.path] [Step.attach (p.access version)] h
      (Ran_single _ _ _)

/-- The calls of the loop of `lock` are a run of the steps of the rules. -/
theorem lockLoop_ran (k : Kernel) (version : Int) (fd : Int) (list : List Path)
    (log : List Event) :
    ∃ evs, (lockLoop k version fd list log).2 = log ++ evs ∧
      Ran (lockLoop k version fd list log).1 evs (ruleSteps version list) := by
  induction list generalizing log with
  | nil =>
    refine ⟨[], by simp [lockLoop], ?_⟩
    left
    simp [lockLoop, ruleSteps]
  | cons p rest ih =>
    obtain ⟨evs1, hlog1, hran1⟩ := lockOne_ran k version log p fd
    have hsteps : ruleSteps version (p :: rest)
        = [Step.openAnchor p.path, Step.attach (p.access version)] ++ ruleSteps version rest := by
      simp [ruleSteps, List.flatMap_cons]
    rw [hsteps]
    unfold lockLoop
    rcases hone : lockOne k version log p fd with ⟨res1, log1⟩
    rw [hone] at hlog1 hran1
    simp only at hlog1 hran1
    cases res1 with
    | some err =>
      simp only
      exact ⟨evs1, hlog1, Ran_fail err evs1 _ _ hran1⟩
    | none =>
      simp only
      obtain ⟨evs2, hlog2, hran2⟩ := ih log1
      refine ⟨evs1 ++ evs2, ?_, Ran_append _ evs1 evs2 _ _ hran1 hran2⟩
      rw [hlog2, hlog1, List.append_assoc]

/-- The calls of `prctl` followed, on success, by `restrict`. -/
theorem prctl_restrict_ran (k : Kernel) (log : List Event) (fd : Int) :
    ∃ evs,
      (match prctl k log with
        | (some err, log) => (some err, log)
        | (none, log) =>
          match restrict k log fd with
          | (some err, log) => (some err, log)
          | (none, log) => (none, log)).2 = log ++ evs ∧
      Ran (match prctl k log with
        | (some err, log) => (some err, log)
        | (none, log) =>
          match restrict k log fd with
          | (some err, log) => (some err, log)
          | (none, log) => (none, log)).1 evs [Step.dropPrivileges, Step.commit] := by
  unfold prctl restrict issue
  simp only
  have h1 := Ran_single Call.prctl (k log Call.prctl).1 (k log Call.prctl).2
  cases hp : errno (k log Call.prctl).2 with
  | some err =>
    rw [hp] at h1
    exact ⟨[Event.mk Call.prctl (k log Call.prctl).1 (k log Call.prctl).2], rfl,
      Ran_fail err _ [Step.dropPrivileges] [Step.commit] h1⟩
  | none =>
    rw [hp] at h1
    simp only
    have h2 := Ran_single (Call.restrict fd)
      (k (log ++ [Event.mk Call.prctl (k log Call.prctl).1 (k log Call.prctl).2])
        (Call.restrict fd)).1
      (k (log ++ [Event.mk Call.prctl (k log Call.prctl).1 (k log Call.prctl).2])
        (Call.restrict fd)).2
    have h12 := Ran_append _ _ _ [Step.dropPrivileges] [Step.commit] h1 h2
    cases hr : errno (k (log ++ [Event.mk Call.prctl (k log Call.prctl).1 (k log Call.prctl).2])
        (Call.restrict fd)).2 with
    | some err =>
      rw [hr] at h12
      exact ⟨_, List.append_assoc _ _ _, h12⟩
    | none =>
      rw [hr] at h12
      exact ⟨_, List.append_assoc _ _ _, h12⟩

/-- The calls of `lock` are a run of the whole enforcement sequence. -/
theorem lock_ran (k : Kernel) (version : Int) (list : List Path) :
    Ran (lock k version list).1 (lock k version list).2 (plan version list) := by
  have hplan : plan version list = [Step.createRuleset] ++
      (ruleSteps version list ++ [Step.dropPrivileges, Step.commit]) := by
    simp [plan]
  rw [hplan]
  unfold lock ruleset issue
  simp only [List.nil_append]
  have h0 := Ran_single (Call.ruleset (capabilities version))
    (k [] (Call.ruleset (capabilities version))).1 (k [] (Call.ruleset (capabilities version))).2
  cases hc : errno (k [] (Call.ruleset (capabilities version))).2 with
  | some err =>
    rw [hc] at h0
    exact Ran_fail err _ _ _ h0
  | none =>
    rw [hc] at h0
    simp only
    obtain ⟨evs, hlog, hran⟩ := lockLoop_ran k version
      (k [] (Call.ruleset (capabilities version))).1 list
      [Event.mk (Call.ruleset (capabilities version))
        (k [] (Call.ruleset (capabilities version))).1
        (k [] (Call.ruleset (capabilities version))).2]
    rcases hloop : lockLoop k version (k [] (Call.ruleset (capabilities version))).1 list
      [Event.mk (Call.ruleset (capabilities version))
        (k [] (Call.ruleset (capabilities version))).1
        (k [] (Call.ruleset (capabilities version))).2] with ⟨res, log1⟩
    rw [hloop] at hlog hran
    simp only at hlog hran
    subst hlog
    cases res with
    | some err =>
      simp only
      exact Ran_append _ _ _ _ _ h0 (Ran_fail err _ _ _ hran)
    | none =>
      simp only
      obtain ⟨evs2, hlog2, hran2⟩ := prctl_restrict_ran k _
        (k [] (Call.ruleset (capabilities version))).1
      rw [hlog2, List.append_assoc]
      exact Ran_append _ _ _ _ _ h0 (Ran_append _ _ _ _ _ hran hran2)

/-- The commit step is the last step of the plan and occurs nowhere else. -/
theorem commit_not_before (version : Int) (list : List Path) :
    plan version list
        = ([Step.createRuleset] ++ ruleSteps version list ++ [Step.dropPrivileges])
          ++ [Step.commit] ∧
    Step.commit ∉ [Step.createRuleset] ++ ruleSteps version list ++ [Step.dropPrivileges] := by
  refine ⟨by simp [plan], ?_⟩
  simp [ruleSteps, List.mem_flatMap]

/-- What a run says about the log, for a non-empty sequence of steps. -/
theorem Ran_facts (res : Option GoError) (events : List Event) (steps : List Step)
    (hne : steps ≠ []) (h : Ran res events steps) :
    (events.map (fun ev => ev.call.step) <+: steps) ∧
    (∀ ev ∈ events.dropLast, ev.e1 = 0) ∧
    (∃ ev, events.getLast? = some ev ∧ res = errno ev.e1) ∧
    (res = none → events.map (fun ev => ev.call.step) = steps ∧ ∀ ev ∈ events, ev.e1 = 0) := by
  rcases h with ⟨hres, hsteps, hok⟩ | ⟨pre, ev, hev, okpre, hfail, hres, hpre⟩
  · refine ⟨by rw [hsteps], fun ev hev => hok ev (List.mem_of_mem_dropLast hev), ?_,
      fun _ => ⟨hsteps, hok⟩⟩
    have hne' : events ≠ [] := by
      intro h0
      rw [h0] at hsteps
      exact hne hsteps.symm
    refine ⟨events.getLast hne', List.getLast?_eq_getLast events hne', ?_⟩
    rw [hres, hok _ (List.getLast_mem hne')]
    rfl
  · refine ⟨hpre, ?_, ⟨ev, ?_, ?_⟩, ?_⟩
    · rw [hev, List.dropLast_concat]
      exact okpre
    · rw [hev, List.getLast?_concat]
    · rw [hres]
      simp [errno, hfail]
    · intro hnone
      rw [hnone] at hres
      cases hres

/-- C20: partial rulesets are never committed.  For every assignment of
outcomes and every rule list, the calls of `lock` follow the plan (create the
ruleset; open and attach each rule; drop privileges; commit) in order; every
call before the last one succeeded, so nothing is invoked after a failure;
`lock` returns the errno of the last call, nil if it succeeded; `restrict` is
invoked only after the whole plan before it was issued and succeeded; and
`lock` returns nil only if every step, `restrict` included, was issued and
succeeded. -/
theorem lock_commits_only_complete (k : Kernel) (version : Int) (list : List Path) :
    ((lock k version list).2.map (fun ev => ev.call.step) <+: plan version list) ∧
    (∀ ev ∈ (lock k version list).2.dropLast, ev.e1 = 0) ∧
    (∃ ev, (lock k version list).2.getLast? = some ev ∧
      (lock k version list).1 = errno ev.e1) ∧
    (∀ ev ∈ (lock k version list).2, ev.call.step = Step.commit →
      (lock k version list).2.map (fun ev => ev.call.step) = plan version list) ∧
    ((lock k version list).1 = none →
      (lock k version list).2.map (fun ev => ev.call.step) = plan version list ∧
      ∀ ev ∈ (lock k version list).2, ev.e1 = 0) := by
  have hne : plan version list ≠ [] := by simp [plan]
  obtain ⟨h1, h2, h3, h4⟩ := Ran_facts _ _ _ hne (lock_ran k version list)
  refine ⟨h1, h2, h3, ?_, h4⟩
  intro ev hev hcommit
  obtain ⟨hplan, hnot⟩ := commit_not_before version list
  rw [hplan] at h1 ⊢
  rcases List.prefix_concat_iff.1 h1 with h | h
  · exact h
  · exfalso
    apply hnot
    have hmem : Step.commit ∈ (lock k version list).2.map (fun ev => ev.call.step) := by
      rw [← hcommit]
      exact List.mem_map_of_mem _ hev
    exact h.subset hmem

/-! ## Rule set: insertion keyed on the path -/

/-- The elements after `Insert`. -/
theorem Insert_items (s : HashSet) (p : Path) :
    (s.Insert p).2.items =
      if ∃ q ∈ s.items, q.path = p.path then s.items else s.items ++ [p] := by
  unfold HashSet.Insert Path.Hash
  by_cases h : ∃ q ∈ s.items, q.path = p.path
  · have : s.items.any (fun q => decide (q.path = p.path)) = true := by
      simpa [List.any_eq_true] using h
    simp [this, h]
  · have : s.items.any (fun q => decide (q.path = p.path)) = false := by
      rw [Bool.eq_false_iff]
      intro hany
      exact h (by simpa [List.any_eq_true] using hany)
    simp only [this, if_neg h]
    simp

theorem Insert_keeps (s : HashSet) (p q : Path) (hq : q ∈ s.items) :
    q ∈ (s.Insert p).2.items := by
  rw [Insert_items]
  split_ifs
  · exact hq
  · exact List.mem_append_left _ hq

theorem Insert_new (s : HashSet) (p q : Path) (hq : q ∈ (s.Insert p).2.items) :
    q ∈ s.items ∨ (q = p ∧ ∀ r ∈ s.items, r.path ≠ p.path) := by
  rw [Insert_items] at hq
  split_ifs at hq with h
  · exact Or.inl hq
  · rcases List.mem_append.1 hq with h' | h'
    · exact Or.inl h'
    · right
      refine ⟨by simpa using h', ?_⟩
      intro r hr hrp
      exact h ⟨r, hr, hrp⟩

theorem Insert_covers (s : HashSet) (p : Path) :
    ∃ q ∈ (s.Insert p).2.items, q.path = p.path := by
  rw [Insert_items]
  split_ifs with h
  · exact h
  · exact ⟨p, by simp, rfl⟩

theorem Insert_nodup (s : HashSet) (p : Path) (h : (s.items.map Path.path).Nodup) :
    ((s.Insert p).2.items.map Path.path).Nodup := by
  rw [Insert_items]
  split_ifs with hex
  · exact h
  · rw [List.map_append, List.nodup_append]
    refine ⟨h, by simp, ?_⟩
    intro a ha hb
    simp only [List.map_cons, List.map_nil, List.mem_singleton] at hb
    obtain ⟨r, hr, hra⟩ := List.mem_map.1 ha
    exact hex ⟨r, hr, by rw [hra, hb]⟩

/-- Inserting a list of rules one by one: elements already present stay. -/
theorem foldl_Insert_keeps (l : List Path) (s : HashSet) (q : Path) (hq : q ∈ s.items) :
    q ∈ (l.foldl (fun s p => (s.Insert p).2) s).items := by
  induction l generalizing s with
  | nil => exact hq
  | cons p rest ih => exact ih _ (Insert_keeps s p q hq)

/-- Every path of the list has an entry. -/
theorem foldl_Insert_covers (l : List Path) (s : HashSet) (p : Path) (hp : p ∈ l) :
    ∃ q ∈ (l.foldl (fun s p => (s.Insert p).2) s).items, q.path = p.path := by
  induction l generalizing s with
  | nil => simp at hp
  | cons a rest ih =>
    rcases List.mem_cons.1 hp with h | h
    · subst h
      obtain ⟨q, hq, hqp⟩ := Insert_covers s p
      exact ⟨q, foldl_Insert_keeps rest _ q hq, hqp⟩
    · exact ih _ h

/-- No two entries share a path. -/
theorem foldl_Insert_nodup (l : List Path) (s : HashSet)
    (h : (s.items.map Path.path).Nodup) :
    ((l.foldl (fun s p => (s.Insert p).2) s).items.map Path.path).Nodup := by
  induction l generalizing s with
  | nil => exact h
  | cons a rest ih => exact ih _ (Insert_nodup s a h)

/-- An entry was there before, or is the first rule of the list with its
path. -/
theorem foldl_Insert_first (l : List Path) (s : HashSet) (q : Path)
    (hq : q ∈ (l.foldl (fun s p => (s.Insert p).2) s).items) :
    q ∈ s.items ∨ ((∀ r ∈ s.items, r.path ≠ q.path) ∧
      l.find? (fun r => decide (r.path = q.path)) = some q) := by
  induction l generalizing s with
  | nil => exact Or.inl hq
  | cons a rest ih =>
    rcases ih (s.Insert a).2 hq with h | ⟨hnot, hfind⟩
    · rcases Insert_new s a q h with h' | ⟨h', hfresh⟩
      · exact Or.inl h'
      · subst h'
        right
        exact ⟨hfresh, by simp⟩
    · right
      have hne : a.path ≠ q.path := by
        intro heq
        obtain ⟨r, hr, hra⟩ := Insert_covers s a
        exact hnot r hr (by rw [hra, heq])
      refine ⟨fun r hr => hnot r (Insert_keeps s a r hr), ?_⟩
      rw [List.find?_cons]
      simp [hne, hfind]

/-- On a rule whose mode is not a bundle tag, the loop body of `New` is
`Insert`. -/
theorem NewStep_concrete (b : Bundles) (s : HashSet) (p : Path) (h : p.mode ∉ bundleTags) :
    NewStep b s p = (s.Insert p).2 := by
  unfold NewStep
  simp only [bundleTags, List.mem_cons, List.mem_singleton, not_or, List.not_mem_nil,
    or_false] at h
  obtain ⟨h1, h2, h3, h4, h5, h6, h7⟩ := h
  simp [h1, h2, h3, h4, h5, h6, h7]

/-- On concrete rules, `New` inserts the rules one by one. -/
theorem New_concrete (b : Bundles) (paths : List Path) (h : ∀ p ∈ paths, p.mode ∉ bundleTags) :
    New b paths = paths.foldl (fun s p => (s.Insert p).2) (NewHashSet 10) := by
  unfold New
  generalize NewHashSet 10 = s
  induction paths generalizing s with
  | nil => rfl
  | cons a rest ih =>
    rw [List.foldl_cons, List.foldl_cons, NewStep_concrete b s a (h a (by simp))]
    exact ih (fun p hp => h p (by simp [hp])) _

theorem Insert_idem (s : HashSet) (p : Path) :
    (s.Insert p).2.Insert p = (false, (s.Insert p).2) := by
  obtain ⟨q, hq, hqp⟩ := Insert_covers s p
  have hany : (s.Insert p).2.items.any (fun q => decide (q.Hash = p.Hash)) = true := by
    rw [List.any_eq_true]
    exact ⟨q, hq, by simpa [Path.Hash] using hqp⟩
  generalize (s.Insert p).2 = t at hany
  unfold HashSet.Insert
  simp only [hany, if_true]

/-- C15: duplicate insertion is a first-wins no-op keyed on the path.  For
a list of concrete rules (no mode is a bundle tag), the set built by `New` has
an entry for every path of the list, no two entries share a path (so its size
is the number of distinct paths), and every entry is the first rule of the list
with its path, later rules for that path being discarded; and inserting the
same concrete rule a second time leaves the set and its size unchanged. -/
theorem New_first_wins (b : Bundles) (paths : List Path)
    (h : ∀ p ∈ paths, p.mode ∉ bundleTags) :
    (∀ p ∈ paths, ∃ q ∈ (New b paths).Slice, q.path = p.path) ∧
    ((New b paths).Slice.map Path.path).Nodup ∧
    (∀ q ∈ (New b paths).Slice,
      paths.find? (fun r => decide (r.path = q.path)) = some q) ∧
    (New b paths).Size = (paths.map Path.path).toFinset.card ∧
    (∀ s : HashSet, ∀ p : Path, (s.Insert p).2.Insert p = (false, (s.Insert p).2)) ∧
    (∀ p : Path, p.mode ∉ bundleTags →
      New b (paths ++ [p] ++ [p]) = New b (paths ++ [p]) ∧
      (New b (paths ++ [p] ++ [p])).Size = (New b (paths ++ [p])).Size) := by
  have hcov : ∀ p ∈ paths, ∃ q ∈ (New b paths).Slice, q.path = p.path := by
    intro p hp
    rw [New_concrete b paths h]
    exact foldl_Insert_covers paths _ p hp
  have hnd : ((New b paths).Slice.map Path.path).Nodup := by
    rw [New_concrete b paths h]
    exact foldl_Insert_nodup paths _ (by simp [NewHashSet])
  have hfirst : ∀ q ∈ (New b paths).Slice,
      paths.find? (fun r => decide (r.path = q.path)) = some q := by
    intro q hq
    rw [New_concrete b paths h] at hq
    rcases foldl_Insert_first paths _ q hq with h' | ⟨_, h'⟩
    · simp [NewHashSet] at h'
    · exact h'
  refine ⟨hcov, hnd, hfirst, ?_, Insert_idem, ?_⟩
  · have hcard : (New b paths).Size = ((New b paths).Slice.map Path.path).toFinset.card := by
      rw [List.toFinset_card_of_nodup hnd]
      simp [HashSet.Size, HashSet.Slice]
    rw [hcard]
    congr 1
    ext x
    simp only [List.mem_toFinset, List.mem_map]
    constructor
    · rintro ⟨q, hq, rfl⟩
      exact ⟨q, List.mem_of_find?_eq_some (hfirst q hq), rfl⟩
    · rintro ⟨p, hp, rfl⟩
      obtain ⟨q, hq, hqp⟩ := hcov p hp
      exact ⟨q, hq, hqp⟩
  · intro p hp
    have h1 : ∀ r ∈ paths ++ [p], r.mode ∉ bundleTags := by
      intro r hr
      rcases List.mem_append.1 hr with h' | h'
      · exact h r h'
      · simp only [List.mem_singleton] at h'
        rw [h']
        exact hp
    have h2 : ∀ r ∈ paths ++ [p] ++ [p], r.mode ∉ bundleTags := by
      intro r hr
      rcases List.mem_append.1 hr with h' | h'
      · exact h1 r h'
      · simp only [List.mem_singleton] at h'
        rw [h']
        exact hp
    have heq : New b (paths ++ [p] ++ [p]) = New b (paths ++ [p]) := by
      rw [New_concrete b _ h2, New_concrete b _ h1, List.foldl_append, List.foldl_append]
      simp only [List.foldl_cons, List.foldl_nil]
      rw [Insert_idem]
    exact ⟨heq, by rw [heq]⟩

/-- Witness for C15: `Dir("/tmp", "r")` followed by `Dir("/tmp", "rw")`; no
two entries of the set share a path, and its size is the number of distinct
paths. -/
theorem New_first_wins_witness :
    ((New (path_linux.init (fun _ => false))
        [dirRule "/tmp" "r", dirRule "/tmp" "rw"]).Slice.map Path.path).Nodup ∧
    (New (path_linux.init (fun _ => false)) [dirRule "/tmp" "r", dirRule "/tmp" "rw"]).Size
      = ([dirRule "/tmp" "r", dirRule "/tmp" "rw"].map Path.path).toFinset.card :=
  ⟨(New_first_wins (path_linux.init (fun _ => false))
      [dirRule "/tmp" "r", dirRule "/tmp" "rw"] (by decide)).2.1,
   (New_first_wins (path_linux.init (fun _ => false))
      [dirRule "/tmp" "r", dirRule "/tmp" "rw"] (by decide)).2.2.2.1⟩

/-! ## Bundle placeholders -/

theorem tags_not_proper : ∀ tag ∈ bundleTags, IsProperMode tag = false := by
  decide

theorem proper_not_tag (mode : GoString) (h : IsProperMode mode = true) :
    mode ∉ bundleTags := by
  intro hmem
  rw [tags_not_proper mode hmem] at h
  cases h

theorem newPath_ok_mode (path mode : GoString) (dir : Bool) (p : Path)
    (h : newPath path mode dir = Except.ok p) : IsProperMode p.mode = true := by
  rw [newPath_eq] at h
  split_ifs at h with h1 h2
  cases h
  simpa using h2

theorem parsePath_ok_mode (k m q : GoString) (p : Path)
    (h : parsePath k m q = Except.ok p) : IsProperMode p.mode = true := by
  unfold parsePath at h
  split_ifs at h with h1 h2 h3
  cases h
  simpa using h2

theorem ParsePath_ok_mode (s : GoString) (p : Path)
    (h : ParsePath s = Except.ok p) : IsProperMode p.mode = true := by
  unfold ParsePath at h
  simp only at h
  split_ifs at h
  split at h
  · exact parsePath_ok_mode _ _ _ p h
  · cases h

/-- Every candidate of every bundle is what its `File` or `Dir` call in `init`
returns; in particular its mode is proper. -/
theorem candidates_constructed :
    ∀ p ∈ sharedCandidates ++ stdioCandidates ++ ttyCandidates ++ tmpCandidates ++
        vminfoCandidates ++ dnsCandidates ++ certsCandidates,
      (if p.dir then Dir p.path p.mode else File p.path p.mode) = Except.ok p ∧
      IsProperMode p.mode = true := by
  decide

theorem load_subset (pathExists : GoString → Bool) (l : List Path) (p : Path)
    (h : p ∈ load pathExists l) : p ∈ l := by
  rw [load_eq_filter] at h
  exact List.mem_of_mem_filter h

/-- The elements after `InsertSlice` are those of inserting one by one. -/
theorem InsertSlice_snd (s : HashSet) (l : List Path) :
    (s.InsertSlice l).2 = l.foldl (fun s p => (s.Insert p).2) s := by
  unfold HashSet.InsertSlice
  generalize false = m
  induction l generalizing s m with
  | nil => rfl
  | cons a rest ih =>
    rw [List.foldl_cons, List.foldl_cons]
    exact ih _ _

theorem InsertSlice_mem (s : HashSet) (l : List Path) (q : Path)
    (hq : q ∈ (s.InsertSlice l).2.items) : q ∈ s.items ∨ q ∈ l := by
  rw [InsertSlice_snd] at hq
  rcases foldl_Insert_first l s q hq with h | ⟨_, h⟩
  · exact Or.inl h
  · exact Or.inr (List.mem_of_find?_eq_some h)

/-- Every rule of every bundle set by `init` has a proper mode. -/
theorem init_bundles_proper (pathExists : GoString → Bool) (q : Path)
    (hq : q ∈ (path_linux.init pathExists).shared ∨ q ∈ (path_linux.init pathExists).stdio ∨
      q ∈ (path_linux.init pathExists).tty ∨ q ∈ (path_linux.init pathExists).tmp ∨
      q ∈ (path_linux.init pathExists).vminfo ∨ q ∈ (path_linux.init pathExists).dns ∨
      q ∈ (path_linux.init pathExists).certs) :
    IsProperMode q.mode = true := by
  have hall := candidates_constructed q
  simp only [List.mem_append] at hall
  unfold path_linux.init at hq
  simp only at hq
  rcases hq with h | h | h | h | h | h | h <;>
    have h' := load_subset _ _ _ h <;>
    exact (hall (by tauto)).2

/-- The loop body of `New` keeps the invariant "every stored rule has a proper
mode", for an argument that is a constructed rule or a bundle placeholder. -/
theorem NewStep_proper (pathExists : GoString → Bool) (s : HashSet) (p : Path)
    (hs : ∀ q ∈ s.items, IsProperMode q.mode = true)
    (hp : IsProperMode p.mode = true ∨ p ∈ [Shared, Stdio, TTY, Tmp, VMInfo, DNS, Certs]) :
    ∀ q ∈ (NewStep (path_linux.init pathExists) s p).items, IsProperMode q.mode = true := by
  intro q hq
  unfold NewStep at hq
  split_ifs at hq
  all_goals first
    | (rcases InsertSlice_mem _ _ _ hq with h | h
       · exact hs q h
       · exact init_bundles_proper pathExists q (by tauto))
    | (rcases Insert_new _ _ _ hq with h | ⟨h, _⟩
       · exact hs q h
       · subst h
         rcases hp with hp | hp
         · exact hp
         · exfalso
           simp only [List.mem_cons, List.mem_singleton, List.not_mem_nil, or_false] at hp
           rcases hp with h | h | h | h | h | h | h <;> subst h <;> simp_all [Shared, Stdio, TTY,
             Tmp, VMInfo, DNS, Certs])

theorem New_proper (pathExists : GoString → Bool) (paths : List Path) (s : HashSet)
    (hs : ∀ q ∈ s.items, IsProperMode q.mode = true)
    (hp : ∀ p ∈ paths,
      IsProperMode p.mode = true ∨ p ∈ [Shared, Stdio, TTY, Tmp, VMInfo, DNS, Certs]) :
    ∀ q ∈ (paths.foldl (NewStep (path_linux.init pathExists)) s).items,
      IsProperMode q.mode = true := by
  induction paths generalizing s with
  | nil => exact hs
  | cons a rest ih =>
    rw [List.foldl_cons]
    exact ih _ (NewStep_proper pathExists s a hs (hp a (by simp)))
      (fun p hp' => hp p (by simp [hp']))

/-- C16: a rule is concrete or a bundle placeholder, never both, and
placeholders are never stored.  No bundle tag ("1" to "7") satisfies
`IsProperMode`; so a rule returned by `File`, `Dir` or `ParsePath` has no tag
as its mode and `New` inserts it as it is; and for every list built from `File`,
`Dir`, `ParsePath` and the bundle constructors, and every filesystem state, no
element of the set built by `New` has a bundle tag as its mode. -/
theorem New_stores_no_placeholder (pathExists : GoString → Bool) (paths : List Path)
    (hbuilt : ∀ p ∈ paths,
      (∃ path mode, File path mode = Except.ok p) ∨
      (∃ path mode, Dir path mode = Except.ok p) ∨
      (∃ s, ParsePath s = Except.ok p) ∨
      p ∈ [Shared, Stdio, TTY, Tmp, VMInfo, DNS, Certs]) :
    (∀ tag ∈ bundleTags, IsProperMode tag = false) ∧
    (∀ p : Path,
      ((∃ path mode, File path mode = Except.ok p) ∨
        (∃ path mode, Dir path mode = Except.ok p) ∨
        (∃ s, ParsePath s = Except.ok p)) →
      p.mode ∉ bundleTags ∧ ∀ (b : Bundles) (s : HashSet), NewStep b s p = (s.Insert p).2) ∧
    (∀ q ∈ (New (path_linux.init pathExists) paths).Slice, q.mode ∉ bundleTags) := by
  have hproper : ∀ p : Path,
      ((∃ path mode, File path mode = Except.ok p) ∨
        (∃ path mode, Dir path mode = Except.ok p) ∨
        (∃ s, ParsePath s = Except.ok p)) → IsProperMode p.mode = true := by
    rintro p (⟨path, mode, h⟩ | ⟨path, mode, h⟩ | ⟨s, h⟩)
    · exact newPath_ok_mode path mode false p h
    · exact newPath_ok_mode path mode true p h
    · exact ParsePath_ok_mode s p h
  refine ⟨tags_not_proper, ?_, ?_⟩
  · intro p hp
    have hnot := proper_not_tag p.mode (hproper p hp)
    exact ⟨hnot, fun b s => NewStep_concrete b s p hnot⟩
  · intro q hq
    apply proper_not_tag
    refine New_proper pathExists paths (NewHashSet 10) (by simp [NewHashSet]) ?_ q hq
    intro p hp
    rcases hbuilt p hp with h | h | h | h
    · exact Or.inl (hproper p (Or.inl h))
    · exact Or.inl (hproper p (Or.inr (Or.inl h)))
    · exact Or.inl (hproper p (Or.inr (Or.inr h)))
    · exact Or.inr h

/-- Witness for C16: the list `[Tmp(), Dir("/data", "rw"), Shared()]` on a
filesystem where every path exists. -/
theorem New_stores_no_placeholder_witness :
    (New (path_linux.init (fun _ => true)) [Tmp, dirRule "/data" "rw", Shared]).Slice.all
      (fun q => decide (q.mode ∉ bundleTags)) = true :=
  List.all_eq_true.2 (fun q hq => decide_eq_true
    ((New_stores_no_placeholder (fun _ => true) [Tmp, dirRule "/data" "rw", Shared]
      (by
        intro p hp
        simp only [List.mem_cons, List.mem_singleton, List.not_mem_nil, or_false] at hp
        rcases hp with h | h | h
        · subst h; right; right; right; decide
        · subst h; right; left; exact ⟨"/data".toList, "rw".toList, by decide⟩
        · subst h; right; right; right; decide)).2.2 q hq))

/-! ## Process state -/

theorem run_append (st : Proc) (a b : List Event) :
    st.run (a ++ b) = (st.run a).run b := by
  unfold Proc.run
  rw [List.foldl_append]

theorem run_cons (st : Proc) (ev : Event) (rest : List Event) :
    st.run (ev :: rest) = (st.apply ev).run rest := rfl

theorem apply_failed (st : Proc) (ev : Event) (h : ev.e1 ≠ 0) : st.apply ev = st := by
  unfold Proc.apply
  rw [if_pos h]

/-- No call closes a descriptor: the open descriptors after a call are those
before it followed by the one it opened, if any. -/
theorem apply_openFds (st : Proc) (ev : Event) :
    (st.apply ev).openFds = st.openFds ++ ev.opened := by
  unfold Proc.apply Event.opened
  by_cases h : ev.e1 ≠ 0
  · simp [h]
  · rw [if_neg h, if_neg h]
    cases ev.call <;> simp

theorem run_openFds (st : Proc) (events : List Event) :
    (st.run events).openFds = st.openFds ++ events.flatMap Event.opened := by
  induction events generalizing st with
  | nil => simp [Proc.run]
  | cons ev rest ih =>
    rw [run_cons, ih, apply_openFds, List.flatMap_cons, List.append_assoc]

/-- Only a successful commit changes the committed restriction. -/
theorem apply_restrictions (st : Proc) (ev : Event)
    (h : ev.e1 = 0 → ev.call.step ≠ Step.commit) :
    (st.apply ev).restrictions = st.restrictions := by
  unfold Proc.apply
  by_cases h0 : ev.e1 ≠ 0
  · rw [if_pos h0]
  · rw [if_neg h0]
    have hstep := h (by simpa using h0)
    cases hc : ev.call <;> simp_all [Call.step]

theorem run_restrictions (st : Proc) (events : List Event)
    (h : ∀ ev ∈ events, ev.e1 = 0 → ev.call.step ≠ Step.commit) :
    (st.run events).restrictions = st.restrictions := by
  induction events generalizing st with
  | nil => rfl
  | cons ev rest ih =>
    rw [run_cons, ih _ (fun e he => h e (by simp [he])), apply_restrictions st ev (h ev (by simp))]

/-- Only a successful `prctl` changes the no-new-privileges flag. -/
theorem apply_noNewPrivs (st : Proc) (ev : Event)
    (h : ev.e1 = 0 → ev.call.step ≠ Step.dropPrivileges) :
    (st.apply ev).noNewPrivs = st.noNewPrivs := by
  unfold Proc.apply
  by_cases h0 : ev.e1 ≠ 0
  · rw [if_pos h0]
  · rw [if_neg h0]
    have hstep := h (by simpa using h0)
    cases hc : ev.call <;> simp_all [Call.step]

theorem run_noNewPrivs (st : Proc) (events : List Event)
    (h : ∀ ev ∈ events, ev.e1 = 0 → ev.call.step ≠ Step.dropPrivileges) :
    (st.run events).noNewPrivs = st.noNewPrivs := by
  induction events generalizing st with
  | nil => rfl
  | cons ev rest ih =>
    rw [run_cons, ih _ (fun e he => h e (by simp [he])), apply_noNewPrivs st ev (h ev (by simp))]

/-- The flag, once set, stays set. -/
theorem apply_noNewPrivs_stays (st : Proc) (ev : Event) (h : st.noNewPrivs = true) :
    (st.apply ev).noNewPrivs = true := by
  unfold Proc.apply
  by_cases h0 : ev.e1 ≠ 0
  · rw [if_pos h0]
    exact h
  · rw [if_neg h0]
    cases ev.call <;> simp [h]

theorem run_noNewPrivs_stays (st : Proc) (events : List Event) (h : st.noNewPrivs = true) :
    (st.run events).noNewPrivs = true := by
  induction events generalizing st with
  | nil => exact h
  | cons ev rest ih => exact ih _ (apply_noNewPrivs_stays st ev h)

/-- A successful `prctl` among the events sets the flag. -/
theorem run_noNewPrivs_set (st : Proc) (events : List Event)
    (h : ∃ ev ∈ events, ev.e1 = 0 ∧ ev.call.step = Step.dropPrivileges) :
    (st.run events).noNewPrivs = true := by
  induction events generalizing st with
  | nil =>
    obtain ⟨ev, hev, _⟩ := h
    simp at hev
  | cons a rest ih =>
    obtain ⟨ev, hev, h0, hstep⟩ := h
    rw [run_cons]
    rcases List.mem_cons.1 hev with heq | hmem
    · subst heq
      apply run_noNewPrivs_stays
      unfold Proc.apply
      rw [if_neg (by simpa using h0)]
      cases hc : ev.call <;> simp_all [Call.step]
    · exact ih _ ⟨ev, hmem, h0, hstep⟩

/-- The shape of a failed attempt: the log is a run of successful calls
followed by the failing one; no commit is among the successful calls, and a
privilege drop is among them exactly when the failing call is the commit. -/
theorem failed_lock_shape (k : Kernel) (version : Int) (list : List Path)
    (h : (lock k version list).1 ≠ none) :
    ∃ pre ev, (lock k version list).2 = pre ++ [ev] ∧ (∀ e ∈ pre, e.e1 = 0) ∧ ev.e1 ≠ 0 ∧
      (∀ e ∈ pre, e.call.step ≠ Step.commit) ∧
      ((∃ e ∈ pre, e.call.step = Step.dropPrivileges) ↔ ev.call.step = Step.commit) := by
  rcases lock_ran k version list with ⟨hres, _, _⟩ | ⟨pre, ev, hev, okpre, hfail, _, hpre⟩
  · exact absurd hres h
  · refine ⟨pre, ev, hev, okpre, hfail, ?_⟩
    obtain ⟨hplan, hnot⟩ := commit_not_before version list
    have hdrop : Step.dropPrivileges ∉ [Step.createRuleset] ++ ruleSteps version list := by
      simp [ruleSteps, List.mem_flatMap]
    rw [hev, List.map_append, hplan] at hpre
    simp only [List.map_cons, List.map_nil] at hpre
    rcases List.prefix_concat_iff.1 hpre with heq | hpre'
    · have h1 := List.append_inj' heq rfl
      refine ⟨?_, fun _ => ?_, fun _ => ?_⟩
      · intro e he hc
        apply hnot
        rw [← h1.1, ← hc]
        exact List.mem_map_of_mem _ he
      · simpa using h1.2
      · have hmem : Step.dropPrivileges ∈ pre.map (fun ev => ev.call.step) := by
          rw [h1.1]
          simp
        obtain ⟨e, he, hstep⟩ := List.mem_map.1 hmem
        exact ⟨e, he, hstep⟩
    · rcases List.prefix_concat_iff.1 hpre' with heq | hpre''
      · have h1 := List.append_inj' heq rfl
        refine ⟨?_, ?_⟩
        · intro e he hc
          apply hnot
          rw [← hc]
          exact hpre'.subset (by simp [List.mem_map_of_mem _ he])
        · refine ⟨?_, fun hc => absurd (hpre'.subset (by simp [hc])) hnot⟩
          rintro ⟨e, he, hd⟩
          exfalso
          apply hdrop
          rw [← h1.1, ← hd]
          exact List.mem_map_of_mem _ he
      · refine ⟨?_, ?_⟩
        · intro e he hc
          apply hnot
          rw [← hc]
          exact hpre'.subset (by simp [List.mem_map_of_mem _ he])
        · refine ⟨?_, fun hc => absurd (hpre'.subset (by simp [hc])) hnot⟩
          rintro ⟨e, he, hd⟩
          exfalso
          apply hdrop
          rw [← hd]
          exact hpre''.subset (by simp [List.mem_map_of_mem _ he])

theorem errno_eq_none_iff (e : Nat) : errno e = none ↔ e = 0 := by
  unfold errno
  by_cases h : e = 0 <;> simp [h]

theorem eventsSince_append (log evs : List Event) : eventsSince log (log ++ evs) = evs := by
  unfold eventsSince
  exact List.drop_left log evs

/-- C21, as stated, fails: with a ruleset on descriptor 3 and every call
succeeding, `lockOne` on `Dir("/tmp", "rw")` leaves the descriptor it opened
(4) open; the open descriptors after it are not those before it. -/
theorem lockOne_closes_anchor_counterexample :
    (Proc.run { noNewPrivs := false, openFds := [3], restrictions := [] }
      (eventsSince [Event.mk (Call.ruleset 0x7fff) 3 0]
        (lockOne kernelAllSucceed 3 [Event.mk (Call.ruleset 0x7fff) 3 0]
          (dirRule "/tmp" "rw") 3).2)).openFds = [3, 4] ∧
    (4 : Int) ∉ [(3 : Int)] ∧
    (lockOne kernelAllSucceed 3 [Event.mk (Call.ruleset 0x7fff) 3 0]
      (dirRule "/tmp" "rw") 3).1 = none := by
  decide

/-- C21 (amended): `lockOne` does not close the anchor.  For every rule and
every outcome of the open and attach calls, the open descriptors after
`lockOne` are those before it when the open fails, and those before it
followed by the descriptor the open returned when it succeeds, whether the
attach then succeeds or fails; the no-new-privileges flag and the committed
restriction are unchanged. -/
theorem lockOne_leaves_anchor_open (k : Kernel) (version : Int) (log : List Event) (p : Path)
    (fd : Int) (st : Proc) :
    (st.run (eventsSince log (lockOne k version log p fd).2)).openFds
      = st.openFds ++ (if (k log (Call.openPath p.path)).2 = 0
          then [(k log (Call.openPath p.path)).1] else []) ∧
    (st.run (eventsSince log (lockOne k version log p fd).2)).noNewPrivs = st.noNewPrivs ∧
    (st.run (eventsSince log (lockOne k version log p fd).2)).restrictions
      = st.restrictions := by
  unfold lockOne syscallOpen add issue
  simp only
  cases hopen : errno (k log (Call.openPath p.path)).2 with
  | some err =>
    have h0 : (k log (Call.openPath p.path)).2 ≠ 0 := fun h =>
      by rw [(errno_eq_none_iff _).2 h] at hopen; cases hopen
    simp only [eventsSince_append, if_neg h0]
    simp [Proc.run, Proc.apply, h0]
  | none =>
    have h0 : (k log (Call.openPath p.path)).2 = 0 := (errno_eq_none_iff _).1 hopen
    simp only [List.append_assoc, eventsSince_append, if_pos h0]
    simp only [Proc.run, List.foldl_cons, List.foldl_nil, List.singleton_append]
    simp only [Proc.apply, h0, ne_eq, not_true_eq_false, if_false]
    split_ifs <;> simp

/-- C22, as stated, fails: when the open of a rule fails after the ruleset was
created, `lock` returns an error and the ruleset descriptor stays open; when
`restrict` fails after `prctl` succeeded, `lock` returns an error, the
no-new-privileges flag is set and the descriptors stay open. -/
theorem lock_failure_restores_state_counterexample :
    (lock kernelOpenFails 3 [dirRule "/tmp" "rw"]).1 = some (GoError.Errno 2) ∧
    Proc.run { noNewPrivs := false, openFds := [], restrictions := [] }
        (lock kernelOpenFails 3 [dirRule "/tmp" "rw"]).2
      = { noNewPrivs := false, openFds := [3], restrictions := [] } ∧
    (lock kernelRestrictFails 3 [dirRule "/tmp" "rw"]).1 = some (GoError.Errno 1) ∧
    Proc.run { noNewPrivs := false, openFds := [], restrictions := [] }
        (lock kernelRestrictFails 3 [dirRule "/tmp" "rw"]).2
      = { noNewPrivs := true, openFds := [3, 4], restrictions := [] } := by
  decide

/-- C22 (amended): a failed enforcement attempt commits nothing.  For every
rule list, every assignment of outcomes for which `lock` returns an error and
every process state before it: the committed restriction after `lock` is the
one before; no descriptor is closed, the open descriptors being those before
followed by the ruleset and the anchors opened during the attempt; the
no-new-privileges flag is set when the failing call is `restrict` (`prctl`
having succeeded) and is unchanged when the failing call is any other; and the
whole state is unchanged when the first call, the creation of the ruleset, is
the one that failed. -/
theorem lock_failure_commits_nothing (k : Kernel) (version : Int) (list : List Path)
    (st : Proc) (h : (lock k version list).1 ≠ none) :
    (st.run (lock k version list).2).restrictions = st.restrictions ∧
    (st.run (lock k version list).2).openFds
      = st.openFds ++ (lock k version list).2.flatMap Event.opened ∧
    (∃ ev, (lock k version list).2.getLast? = some ev ∧ ev.e1 ≠ 0 ∧
      (ev.call.step = Step.commit →
        (st.run (lock k version list).2).noNewPrivs = true) ∧
      (ev.call.step ≠ Step.commit →
        (st.run (lock k version list).2).noNewPrivs = st.noNewPrivs)) ∧
    ((∀ ev, (lock k version list).2.head? = some ev → ev.e1 ≠ 0) →
      st.run (lock k version list).2 = st) := by
  obtain ⟨pre, ev, hlog, okpre, hfail, hnocommit, hdrop⟩ := failed_lock_shape k version list h
  rw [hlog]
  have hrun : st.run (pre ++ [ev]) = st.run pre := by
    rw [run_append]
    exact apply_failed _ ev hfail
  refine ⟨?_, run_openFds st _, ?_, ?_⟩
  · rw [hrun]
    exact run_restrictions st pre (fun e he _ => hnocommit e he)
  · rw [hrun]
    refine ⟨ev, List.getLast?_concat pre, hfail, ?_, ?_⟩
    · intro hcommit
      obtain ⟨e, he, hstep⟩ := hdrop.2 hcommit
      exact run_noNewPrivs_set st pre ⟨e, he, okpre e he, hstep⟩
    · intro hother
      exact run_noNewPrivs st pre (fun e he _ hstep => hother (hdrop.1 ⟨e, he, hstep⟩))
  · intro hhead
    rw [hrun]
    cases pre with
    | nil => rfl
    | cons a rest =>
      exact absurd (okpre a (by simp)) (hhead a (by simp))

/-- Witness for C22 (amended): the attempt in which the open of "/tmp" fails
with `ENOENT`, and the attempt in which `restrict` fails with `EPERM`; nothing
is committed in either, and in the second the flag is set. -/
theorem lock_failure_commits_nothing_witness :
    (Proc.run { noNewPrivs := false, openFds := [], restrictions := [] }
      (lock kernelOpenFails 3 [dirRule "/tmp" "rw"]).2).restrictions = [] ∧
    (Proc.run { noNewPrivs := false, openFds := [], restrictions := [] }
      (lock kernelRestrictFails 3 [dirRule "/tmp" "rw"]).2).restrictions = [] ∧
    (Proc.run { noNewPrivs := false, openFds := [], restrictions := [] }
      (lock kernelRestrictFails 3 [dirRule "/tmp" "rw"]).2).noNewPrivs = true :=
  ⟨(lock_failure_commits_nothing kernelOpenFails 3 [dirRule "/tmp" "rw"]
      { noNewPrivs := false, openFds := [], restrictions := [] } (by decide)).1,
   (lock_failure_commits_nothing kernelRestrictFails 3 [dirRule "/tmp" "rw"]
      { noNewPrivs := false, openFds := [], restrictions := [] } (by decide)).1,
   match (lock_failure_commits_nothing kernelRestrictFails 3 [dirRule "/tmp" "rw"]
      { noNewPrivs := false, openFds := [], restrictions := [] } (by decide)).2.2.1 with
   | ⟨_, hlast, _, hset, _⟩ => hset (by
      have h : (lock kernelRestrictFails 3 [dirRule "/tmp" "rw"]).2.getLast?
          = some (Event.mk (Call.restrict 3) (-1) 1) := by decide
      rw [h] at hlast
      cases hlast
      rfl)⟩

/-! ## Compiled rules and handled access -/

/-- A letter's mask lies inside the capabilities of the same level. -/
theorem letterMask_subset_capabilities (dir : Bool) (v : Int) (c : Char) :
    letterMask dir v c ||| capabilities v = capabilities v := by
  unfold letterMask capabilities
  by_cases h2 : v ≥ 2 <;> by_cases h3 : v ≥ 3 <;> first
    | omega
    | (simp only [h2, h3, if_true, if_false]
       split_ifs <;> cases dir <;> simp_all <;> decide)

/-- The first call of `lock` creates the ruleset with `capabilities()`. -/
theorem lock_log_head (k : Kernel) (version : Int) (list : List Path) :
    ∃ r0 e1 rest,
      (lock k version list).2 = Event.mk (Call.ruleset (capabilities version)) r0 e1 :: rest := by
  unfold lock ruleset issue
  simp only [List.nil_append]
  cases hc : errno (k [] (Call.ruleset (capabilities version))).2 with
  | some err => exact ⟨_, _, [], rfl⟩
  | none =>
    simp only
    obtain ⟨evs, hlog, _⟩ := lockLoop_ran k version
      (k [] (Call.ruleset (capabilities version))).1 list
      [Event.mk (Call.ruleset (capabilities version))
        (k [] (Call.ruleset (capabilities version))).1
        (k [] (Call.ruleset (capabilities version))).2]
    rcases hloop : lockLoop k version (k [] (Call.ruleset (capabilities version))).1 list
      [Event.mk (Call.ruleset (capabilities version))
        (k [] (Call.ruleset (capabilities version))).1
        (k [] (Call.ruleset (capabilities version))).2] with ⟨res, log1⟩
    rw [hloop] at hlog
    simp only at hlog
    subst hlog
    cases res with
    | some err => exact ⟨_, _, evs, rfl⟩
    | none =>
      simp only
      obtain ⟨evs2, hlog2, _⟩ := prctl_restrict_ran k _
        (k [] (Call.ruleset (capabilities version))).1
      rw [hlog2]
      exact ⟨_, _, evs ++ evs2, List.append_assoc _ _ _⟩

/-- Every attach of `lock` carries the bitmask of a rule of the list. -/
theorem lock_attach_is_access (k : Kernel) (version : Int) (list : List Path)
    (ev : Event) (hev : ev ∈ (lock k version list).2)
    (fd : Int) (allowedAccess : Nat) (parentFd : Int)
    (hcall : ev.call = Call.add fd allowedAccess parentFd) :
    ∃ p ∈ list, allowedAccess = p.access version := by
  have hne : plan version list ≠ [] := by simp [plan]
  have hprefix := (Ran_facts _ _ _ hne (lock_ran k version list)).1
  have hmem : Step.attach allowedAccess ∈ plan version list := by
    apply hprefix.subset
    have := List.mem_map_of_mem (fun ev => ev.call.step) hev
    simpa [hcall, Call.step] using this
  simp only [plan, ruleSteps, List.mem_append, List.mem_cons, List.mem_singleton,
    List.mem_flatMap, List.not_mem_nil, or_false] at hmem
  rcases hmem with (h | ⟨p, hp, h⟩) | h
  · cases h
  · rcases h with h | h
    · cases h
    · exact ⟨p, hp, by simpa using h⟩
  · rcases h with h | h <;> cases h

/-- C24: every compiled rule stays within the handled access of the ruleset.
For every rule and capability level, each bit of `Path.access` is set in
`capabilities()` at that level; and in `lock` the ruleset is created with
`capabilities()` while every attach carries a bitmask inside it. -/
theorem access_within_capabilities (p : Path) (v : Int) (k : Kernel) (list : List Path) :
    p.access v ||| capabilities v = capabilities v ∧
    p.access v &&& capabilities v = p.access v ∧
    (∃ r0 e1 rest,
      (lock k v list).2 = Event.mk (Call.ruleset (capabilities v)) r0 e1 :: rest) ∧
    (∀ ev ∈ (lock k v list).2, ∀ (fd : Int) (allowedAccess : Nat) (parentFd : Int),
      ev.call = Call.add fd allowedAccess parentFd →
        allowedAccess ||| capabilities v = capabilities v) := by
  have hsub : ∀ q : Path, q.access v ||| capabilities v = capabilities v := by
    intro q
    rw [access_eq_orOfLetters]
    exact orOfLetters_subset q.dir v _ (letterMask_subset_capabilities q.dir v) q.mode
  refine ⟨hsub p, ?_, lock_log_head k v list, ?_⟩
  · have h := hsub p
    apply Nat.eq_of_testBit_eq
    intro i
    have hi := congrArg (fun n => n.testBit i) h
    simp only [Nat.testBit_or] at hi
    rw [Nat.testBit_and]
    cases ha : (p.access v).testBit i <;> simp_all
  · intro ev hev fd a pfd hcall
    obtain ⟨q, _, hq⟩ := lock_attach_is_access k v list ev hev fd a pfd hcall
    rw [hq]
    exact hsub q

/-- Witness for C24: in the attempt on `Dir("/tmp", "rwc")` at level 3 with
every call succeeding, the attach (the third call) carries a bitmask inside
`capabilities()`. -/
theorem access_within_capabilities_witness :
    (Path.access (dirRule "/tmp" "rwc") 3) ||| capabilities 3 = capabilities 3 :=
  (access_within_capabilities (dirRule "/tmp" "rwc") 3 kernelAllSucceed
      [dirRule "/tmp" "rwc"]).2.2.2
    (Event.mk (Call.add 3 (Path.access (dirRule "/tmp" "rwc") 3) 4) 0 0) (by decide)
    3 _ 4 rfl

/-- A bit of the OR over a mode is set exactly when some letter sets it. -/
theorem testBit_orOfLetters (dir : Bool) (v : Int) (mode : GoString) (i : Nat) :
    (orOfLetters dir v mode).testBit i
      = mode.any (fun c => (letterMask dir v c).testBit i) := by
  induction mode with
  | nil => simp [orOfLetters]
  | cons c cs ih => rw [orOfLetters_cons, Nat.testBit_or, ih, List.any_cons]

/-- C25: the compiled bitmask depends only on the set of mode letters.  Two
rules with the same directory flag whose modes contain the same characters, in
any order and with any repetition, have the same `Path.access` at every
capability level. -/
theorem access_depends_on_letter_set (mode1 mode2 path1 path2 : GoString) (dir : Bool)
    (v : Int) (h : ∀ c, c ∈ mode1 ↔ c ∈ mode2) :
    (Path.mk mode1 path1 dir).access v = (Path.mk mode2 path2 dir).access v := by
  rw [access_eq_orOfLetters, access_eq_orOfLetters]
  apply Nat.eq_of_testBit_eq
  intro i
  rw [testBit_orOfLetters, testBit_orOfLetters, Bool.eq_iff_iff, List.any_eq_true,
    List.any_eq_true]
  constructor
  · rintro ⟨c, hc, hbit⟩
    exact ⟨c, (h c).1 hc, hbit⟩
  · rintro ⟨c, hc, hbit⟩
    exact ⟨c, (h c).2 hc, hbit⟩

/-- Witness for C25: the modes "rw", "wr" and "rrw" on a directory at
level 3. -/
theorem access_depends_on_letter_set_witness :
    (Path.mk ['r', 'w'] ['/', 'a'] true).access 3 = (Path.mk ['w', 'r'] ['/', 'a'] true).access 3 ∧
    (Path.mk ['r', 'w'] ['/', 'a'] true).access 3
      = (Path.mk ['r', 'r', 'w'] ['/', 'b'] true).access 3 :=
  ⟨access_depends_on_letter_set ['r', 'w'] ['w', 'r'] ['/', 'a'] ['/', 'a'] true 3
      (fun c => by simp [or_comm]),
   access_depends_on_letter_set ['r', 'w'] ['r', 'r', 'w'] ['/', 'a'] ['/', 'b'] true 3
      (fun c => by simp)⟩

/-! ## Strictness order and check order -/

/-- C26: the Safety values are ordered by strictness
`Try < OnlyAvailable < OnlySupported < Mandatory`.  On the Linux and on the
non-Linux variant, for every availability flag and enforcement outcome and every
two enumerated values `s`, `s'` with `s'` at least as strict as `s`, an error
from `Lock(s)` implies an error from `Lock(s')`; and `Lock(Try)` never returns
an error. -/
theorem Lock_monotone_in_strictness (available : Bool) (r : Option GoError) (s s' : Safety)
    (hs : s = Try ∨ s = OnlyAvailable ∨ s = OnlySupported ∨ s = Mandatory)
    (hs' : s' = Try ∨ s' = OnlyAvailable ∨ s' = OnlySupported ∨ s' = Mandatory)
    (hle : strictness s ≤ strictness s') :
    ((Linux.Lock available r s).isSome = true → (Linux.Lock available r s').isSome = true) ∧
    ((Default.Lock s).isSome = true → (Default.Lock s').isSome = true) ∧
    Linux.Lock available r Try = none ∧
    Default.Lock Try = none := by
  refine ⟨?_, ?_, ?_, by decide⟩
  · rcases hs with h | h | h | h <;> rcases hs' with h' | h' | h' | h' <;> subst h <;> subst h' <;>
      cases available <;> cases r <;>
      simp_all [Linux.Lock, errorsJoin, strictness, Try, OnlyAvailable, OnlySupported, Mandatory]
  · rcases hs with h | h | h | h <;> rcases hs' with h' | h' | h' | h' <;> subst h <;> subst h' <;>
      simp_all [Default.Lock, strictness, Try, OnlyAvailable, OnlySupported, Mandatory]
  · cases available <;> cases r <;> simp [Linux.Lock, Try, OnlyAvailable]

/-- Witness for C26: landlock not available, `OnlySupported` against
`Mandatory`. -/
theorem Lock_monotone_in_strictness_witness :
    ((Linux.Lock false none OnlySupported).isSome = true →
      (Linux.Lock false none Mandatory).isSome = true) ∧
    ((Default.Lock OnlySupported).isSome = true → (Default.Lock Mandatory).isSome = true) ∧
    Linux.Lock false none Try = none ∧
    Default.Lock Try = none :=
  Lock_monotone_in_strictness false none OnlySupported Mandatory
    (Or.inr (Or.inr (Or.inl rfl))) (Or.inr (Or.inr (Or.inr rfl))) (by decide)

/-- C27: the constructors check the path first, the parser the mode first.
For a mode that is not proper, `File("", mode)` and `Dir("", mode)` panic with
"improper path" while `parsePath("f", mode, "")` and `parsePath("d", mode, "")`
return `ErrImproperMode`; when only the path is improper both sides report the
path, and when only the mode is improper both report the mode. -/
theorem constructors_and_parser_check_order (path mode : GoString) :
    (IsProperMode mode = false →
      File [] mode = Except.error "improper path" ∧
      Dir [] mode = Except.error "improper path" ∧
      parsePath ['f'] mode [] = Except.error GoError.ErrImproperMode ∧
      parsePath ['d'] mode [] = Except.error GoError.ErrImproperMode) ∧
    (path = [] → IsProperMode mode = true →
      File path mode = Except.error "improper path" ∧
      Dir path mode = Except.error "improper path" ∧
      parsePath ['f'] mode path = Except.error GoError.ErrImproperPath ∧
      parsePath ['d'] mode path = Except.error GoError.ErrImproperPath) ∧
    (path ≠ [] → IsProperMode mode = false →
      File path mode = Except.error "improper mode" ∧
      Dir path mode = Except.error "improper mode" ∧
      parsePath ['f'] mode path = Except.error GoError.ErrImproperMode ∧
      parsePath ['d'] mode path = Except.error GoError.ErrImproperMode) := by
  unfold File Dir
  refine ⟨?_, ?_, ?_⟩
  · intro hm
    rw [newPath_eq, newPath_eq, (parsePath_f_d mode []).1, (parsePath_f_d mode []).2]
    simp [hm]
  · intro hp hm
    rw [newPath_eq, newPath_eq, (parsePath_f_d mode path).1, (parsePath_f_d mode path).2]
    simp [hp, hm]
  · intro hp hm
    rw [newPath_eq, newPath_eq, (parsePath_f_d mode path).1, (parsePath_f_d mode path).2]
    simp [hp, hm]

/-- Witness for C27: the empty path with the improper mode "q". -/
theorem constructors_and_parser_check_order_witness :
    File [] ['q'] = Except.error "improper path" ∧
    Dir [] ['q'] = Except.error "improper path" ∧
    parsePath ['f'] ['q'] [] = Except.error GoError.ErrImproperMode ∧
    parsePath ['d'] ['q'] [] = Except.error GoError.ErrImproperMode :=
  (constructors_and_parser_check_order [] ['q']).1 (by decide)

/-! ## go-set and libtime -/

/-- Truncated division by a positive number, through floor division. -/
theorem tdiv_eq_floor (a b : Int) (hb : 0 < b) :
    a.tdiv b = if 0 ≤ a then a / b else -((-a) / b) := by
  by_cases ha : 0 ≤ a
  · rw [if_pos ha, Int.tdiv_eq_ediv ha (Int.le_of_lt hb)]
  · rw [if_neg ha]
    have h1 : (-(-a)).tdiv b = -((-a).tdiv b) := Int.neg_tdiv (-a) b
    rw [Int.neg_neg] at h1
    rw [h1, Int.tdiv_eq_ediv (by omega) (Int.le_of_lt hb)]

/-- A value in the range of `int64` is not changed by wrapping. -/
theorem wrapInt64_of_range (x : Int) (h1 : -9223372036854775808 ≤ x)
    (h2 : x < 9223372036854775808) : libtime.wrapInt64 x = x := by
  unfold libtime.wrapInt64
  omega

/-- In range, `FromMilliseconds` is the split of `ms` into whole seconds
(rounded down) and the nanoseconds of the remaining milliseconds. -/
theorem FromMilliseconds_eq (ms : Int) (hlo : -9223372036854 ≤ ms) (hhi : ms ≤ 9223372036854) :
    libtime.FromMilliseconds ms = { sec := ms / 1000, nsec := ms % 1000 * 1000000 } := by
  unfold libtime.FromMilliseconds libtime.timeUnix libtime.millisToSecsDenominator
    libtime.nanosToMillisDenominator
  simp only [Int.tmod_def]
  rw [tdiv_eq_floor ms 1000 (by decide)]
  by_cases h0 : 0 ≤ ms
  · simp only [if_pos h0]
    rw [wrapInt64_of_range (ms / 1000) (by omega) (by omega),
      wrapInt64_of_range ((ms - 1000 * (ms / 1000)) * 1000000) (by omega) (by omega),
      if_neg (by omega)]
    congr 1
    omega
  · simp only [if_neg h0]
    rw [wrapInt64_of_range (-(-ms / 1000)) (by omega) (by omega),
      wrapInt64_of_range ((ms - 1000 * -(-ms / 1000)) * 1000000) (by omega) (by omega)]
    by_cases hr : (-ms) % 1000 = 0
    · rw [if_neg (by omega)]
      congr 1 <;> omega
    · rw [if_pos (by omega)]
      have hn : ((ms - 1000 * -(-ms / 1000)) * 1000000).tdiv 1000000000 = 0 := by
        rw [tdiv_eq_floor _ 1000000000 (by decide), if_neg (by omega)]
        omega
      simp only [hn]
      rw [wrapInt64_of_range (0 * 1000000000) (by decide) (by decide),
        wrapInt64_of_range (-(-ms / 1000) + 0) (by omega) (by omega),
        wrapInt64_of_range ((ms - 1000 * -(-ms / 1000)) * 1000000 - 0 * 1000000000)
          (by omega) (by omega),
        if_pos (by omega),
        wrapInt64_of_range (-(-ms / 1000) + 0 - 1) (by omega) (by omega),
        wrapInt64_of_range ((ms - 1000 * -(-ms / 1000)) * 1000000 - 0 * 1000000000 + 1000000000)
          (by omega) (by omega)]
      congr 1 <;> omega

/-- Wrapping an intermediate result does not change the wrapped sum. -/
theorem wrapInt64_add_left (a b : Int) :
    libtime.wrapInt64 (libtime.wrapInt64 a + b) = libtime.wrapInt64 (a + b) := by
  unfold libtime.wrapInt64
  omega

/-- C28: millisecond conversion round-trips.  For every `ms`, negative values
included, with `|ms| ≤ (2^63 - 1) / 10^6 = 9223372036854`,
`ToMilliseconds(FromMilliseconds(ms)) = ms`; the instant in between is
`ms / 1000` whole seconds (rounded down) and `ms % 1000` milliseconds, and its
`UnixNano` is `ms * 10^6`. -/
theorem milliseconds_round_trip (ms : Int) (hlo : -9223372036854 ≤ ms)
    (hhi : ms ≤ 9223372036854) :
    libtime.ToMilliseconds (libtime.FromMilliseconds ms) = ms ∧
    (libtime.FromMilliseconds ms).UnixNano = ms * 1000000 ∧
    (2 ^ 63 - 1 : Int) / 10 ^ 6 = 9223372036854 := by
  have hnano : (libtime.FromMilliseconds ms).UnixNano = ms * 1000000 := by
    rw [FromMilliseconds_eq ms hlo hhi]
    unfold libtime.Time.UnixNano
    simp only
    rw [wrapInt64_add_left, wrapInt64_of_range _ (by omega) (by omega)]
    omega
  refine ⟨?_, hnano, by decide⟩
  unfold libtime.ToMilliseconds libtime.nanosToMillisDenominator
  rw [hnano, Int.mul_tdiv_cancel ms (by decide), wrapInt64_of_range ms (by omega) (by omega)]

/-- Witness for C28: the most negative `ms` in range. -/
theorem milliseconds_round_trip_witness :
    libtime.ToMilliseconds (libtime.FromMilliseconds (-9223372036854)) = -9223372036854 :=
  (milliseconds_round_trip (-9223372036854) (by decide) (by decide)).1

/-- The loop of `ContainsAll` checks every item. -/
theorem ContainsAll_loop_eq {T : Type} [DecidableEq T] (s : set.Set T) (items : List T) :
    set.Set.ContainsAll.loop s items = items.all (fun x => s.Contains x) := by
  induction items with
  | nil => rfl
  | cons a rest ih =>
    unfold set.Set.ContainsAll.loop
    cases h : s.Contains a <;> simp [h, ih]

/-- The set built by `From` from a single element. -/
theorem From_singleton {T : Type} [DecidableEq T] (a : T) :
    (set.From [a]).items = {a} := by
  simp [set.From, set.New, set.Set.InsertAll, set.Set.Insert]

/-- C23 at its failing input: for the set `{a}` and the slice `[a, a]`,
`ContainsAll` returns false although `Contains` holds of every item of the
slice; in general `ContainsAll` is true exactly when every item is a member and
the slice is no longer than the set has elements. -/
theorem ContainsAll_rejects_repeated_items :
    (∀ a : Nat, (set.From [a]).ContainsAll [a, a] = false ∧
      ∀ x ∈ [a, a], (set.From [a]).Contains x = true) ∧
    (set.From [7]).ContainsAll [7, 7] = false ∧
    (set.From [7]).Contains 7 = true ∧
    (∀ (s : set.Set Nat) (items : List Nat),
      s.ContainsAll items = true ↔
        items.length ≤ s.items.card ∧ ∀ x ∈ items, s.Contains x = true) := by
  refine ⟨?_, by decide, by decide, ?_⟩
  · intro a
    refine ⟨?_, ?_⟩
    · unfold set.Set.ContainsAll
      rw [From_singleton]
      simp
    · intro x hx
      unfold set.Set.Contains
      rw [From_singleton]
      simp only [List.mem_cons, List.mem_singleton, List.not_mem_nil, or_false, or_self] at hx
      simp [hx]
  · intro s items
    unfold set.Set.ContainsAll
    rw [ContainsAll_loop_eq]
    by_cases h : s.items.card < items.length
    · simp only [h, if_true]
      constructor
      · intro hf
        cases hf
      · rintro ⟨hle, _⟩
        omega
    · simp only [h, if_false, List.all_eq_true]
      constructor
      · intro hall
        exact ⟨by omega, hall⟩
      · rintro ⟨_, hall⟩
        exact hall

end landlock
